import Mathlib

set_option maxRecDepth 10000

/-!
Shallow embedding of `scheduler_skeleton.c` (CPU scheduler simulator, C99)
and proofs about it.

Conventions of the embedding:
* C `int` values are modelled as `Int`; sizes, loop counters and array
  positions that are provably non-negative are modelled as `Nat`.
* The global circular ready queue `FCFSQ` (array of `MAX_PROCESSES` ints,
  `front`/`rear`/`size`) is modelled by `ReadyQueue` with the backing array
  as a function `Nat → Int`; the C code leaves the array uninitialized,
  we initialize it with zeros (its cells are only read after being written).
* C `for`/`while` loops become structural recursions on an explicit
  iteration/fuel counter.  Each fuel value used is large enough that the
  fuel branch is never what stops the loop, so the recursion computes
  exactly what the C loop computes (see `simLoop_fuel_independent` for the
  main loop, whose body is bounded by the `bruh > 100` debug break in the
  C source).
* `Process *current_process` pointers are modelled as `Option Nat` holding
  the index of the process in the `processes` array (the C code recovers
  this index by pointer arithmetic `curr - processes`).
* Two ghost fields instrument observable side effects without changing
  the computation: `SimState.aborted` records whether the
  "Simulation exceeded maximum expected time" warning was printed, and
  `AssignResult.discarded` / `SimState.discarded` record whether the
  defensive discard-and-retry branch of `assign_processes_to_idle_cpus`
  was ever executed.
-/

namespace CSched

/-- MAX_PROCESSES from scheduler_skeleton.c. -/
def MAX_PROCESSES : Nat := 500

/-- ProcessState enum from scheduler_skeleton.c. -/
inductive ProcessState where
  | WAITING
  | RUNNING
  | COMPLETED
  | READY
deriving DecidableEq

/-- Algorithm enum from scheduler_skeleton.c. -/
inductive Algorithm where
  | FCFS
  | RR
  | SRTF
  | SJF
deriving DecidableEq

/-- Process struct from scheduler_skeleton.c. -/
structure Process where
  pid : Int
  arrival_time : Int
  burst_time : Int
  priority : Int
  remaining_time : Int
  state : ProcessState
  start_time : Int
  finish_time : Int
  waiting_time : Int
  quantum_used : Int
  response_time : Int
deriving DecidableEq

/-- CPU struct from scheduler_skeleton.c; `current_process` holds the index
of the running process in the `processes` array (`NULL` = `none`). -/
structure CPU where
  id : Int
  current_process : Option Nat
  idle_time : Int
  busy_time : Int
deriving DecidableEq

/-- ReadyQueue struct from scheduler_skeleton.c: a circular queue backed by
an array of `MAX_PROCESSES` ints. -/
structure ReadyQueue where
  process_indices : Nat → Int
  front : Nat
  rear : Int
  size : Nat

/-- init_queue from scheduler_skeleton.c: `front=0, rear=-1, size=0`. -/
def init_queue : ReadyQueue := ⟨fun _ => 0, 0, -1, 0⟩

/-- Ghost observation of the `fprintf(stderr, "Error: Ready queue overflow!")`
branch guarding both `enqueue` and `enqueue_priority`. -/
def enqueue_overflow_reported (q : ReadyQueue) : Bool :=
  decide (MAX_PROCESSES ≤ q.size)

/-- enqueue from scheduler_skeleton.c: on overflow report and leave the queue
unchanged, otherwise advance `rear` and store the index there. -/
def enqueue (q : ReadyQueue) (process_idx : Int) : ReadyQueue :=
  if MAX_PROCESSES ≤ q.size then q
  else
    let rear2 : Int := (q.rear + 1) % (MAX_PROCESSES : Int)
    { q with
      rear := rear2
      process_indices := fun j => if j = rear2.toNat then process_idx else q.process_indices j
      size := q.size + 1 }

/-- dequeue from scheduler_skeleton.c: returns `-1` when the queue is empty,
otherwise the front element, advancing `front`. -/
def dequeue (q : ReadyQueue) : Int × ReadyQueue :=
  if q.size = 0 then (-1, q)
  else (q.process_indices q.front,
        { q with front := (q.front + 1) % MAX_PROCESSES, size := q.size - 1 })

/-- Scan loop of enqueue_priority from scheduler_skeleton.c: walk `cur` from
`front` until it reaches `stop = (rear + 1) % MAX_PROCESSES` or the new
entry ranks strictly better (`new_time < cur_time`, or equal times and
`new_priority > cur_priority`) than the entry at `cur`.  The C `while` loop
terminates because `cur` reaches `stop` within `MAX_PROCESSES` increments;
the fuel argument is instantiated with `MAX_PROCESSES` accordingly. -/
def scanLoop (procs : Nat → Process) (stop : Nat) (new_time new_priority : Int)
    (data : Nat → Int) : Nat → Nat → Nat
  | cur, 0 => cur
  | cur, fuel+1 =>
    if cur = stop then cur
    else if new_time < (procs (data cur).toNat).remaining_time ∨
        (new_time = (procs (data cur).toNat).remaining_time ∧
          (procs (data cur).toNat).priority < new_priority) then cur
    else scanLoop procs stop new_time new_priority data ((cur + 1) % MAX_PROCESSES) fuel

/-- Shift loop of enqueue_priority from scheduler_skeleton.c: starting with
`temp` holding the entry displaced from position `cur`, repeatedly move
`temp` one slot forward until position `rear` has been written.  The C
`while` loop terminates because `cur` reaches `rear` within `MAX_PROCESSES`
increments; the fuel argument is instantiated with `MAX_PROCESSES`. -/
def shiftLoop (rear : Nat) : (Nat → Int) → Int → Nat → Nat → (Nat → Int)
  | data, _, _, 0 => data
  | data, temp, cur, fuel+1 =>
    if cur = rear then data
    else
      let nextcur := (cur + 1) % MAX_PROCESSES
      shiftLoop rear (fun j => if j = nextcur then temp else data j) (data nextcur) nextcur fuel

/-- enqueue_priority from scheduler_skeleton.c: overflow check, empty-queue
(`rear == -1`) fast path, otherwise scan from the front for the insertion
position, append if the scan reached the end, else displace-and-shift. -/
def enqueue_priority (q : ReadyQueue) (process_idx : Int) (procs : Nat → Process) : ReadyQueue :=
  if MAX_PROCESSES ≤ q.size then q
  else if q.rear = -1 then enqueue q process_idx
  else
    let stop : Nat := ((q.rear + 1) % (MAX_PROCESSES : Int)).toNat
    let new_time := (procs process_idx.toNat).remaining_time
    let new_priority := (procs process_idx.toNat).priority
    let cur := scanLoop procs stop new_time new_priority q.process_indices q.front MAX_PROCESSES
    if cur = stop then enqueue q process_idx
    else
      let rear2 : Int := (q.rear + 1) % (MAX_PROCESSES : Int)
      let temp := q.process_indices cur
      let data1 : Nat → Int := fun j => if j = cur then process_idx else q.process_indices j
      { q with
        rear := rear2
        process_indices := shiftLoop rear2.toNat data1 temp cur MAX_PROCESSES
        size := q.size + 1 }

/-- Logical contents of the circular queue, front first. -/
def ReadyQueue.toList (q : ReadyQueue) : List Int :=
  (List.range q.size).map fun k => q.process_indices ((q.front + k) % MAX_PROCESSES)

/-- Structural well-formedness of the circular queue, established by
`init_queue` and preserved by every queue operation. -/
structure QInv (q : ReadyQueue) : Prop where
  front_lt : q.front < MAX_PROCESSES
  size_le : q.size ≤ MAX_PROCESSES
  rear_neg : q.rear = -1 → q.size = 0 ∧ q.front = 0
  rear_nonneg : q.rear ≠ -1 → 0 ≤ q.rear ∧ q.rear < (MAX_PROCESSES : Int) ∧
      ((q.rear + 1) % (MAX_PROCESSES : Int)).toNat = (q.front + q.size) % MAX_PROCESSES

/-- A Process record exactly as initialized by load_processes in
scheduler_skeleton.c (`remaining = burst`, state `WAITING`, `start_time`,
`finish_time`, `response_time` set to `-1`, counters zero). -/
def load_process (pid arrival burst priority : Int) : Process :=
  { pid := pid
    arrival_time := arrival
    burst_time := burst
    priority := priority
    remaining_time := burst
    state := .WAITING
    start_time := -1
    finish_time := -1
    waiting_time := 0
    quantum_used := 0
    response_time := -1 }

/-- First loop of handle_arrivals from scheduler_skeleton.c: for each process
index `i`, if `arrival_time == current_time` (and the defensive
`arrival_count < MAX_PROCESSES` cap holds) set its state to `READY`,
reset `quantum_used` and record the index. -/
def arrivalsLoop (t : Int) : Nat → Nat → (Nat → Process) → List Nat →
    ((Nat → Process) × List Nat)
  | _, 0, procs, acc => (procs, acc)
  | i, rem+1, procs, acc =>
    if (procs i).arrival_time = t then
      if acc.length < MAX_PROCESSES then
        arrivalsLoop t (i+1) rem
          (fun j => if j = i then
              { procs i with state := .READY, quantum_used := 0 } else procs j)
          (acc ++ [i])
      else arrivalsLoop t (i+1) rem procs acc
    else arrivalsLoop t (i+1) rem procs acc

/-- Second loop of handle_arrivals from scheduler_skeleton.c: FCFS enqueues
each newly arrived index, SJF inserts it with `enqueue_priority`, and the
RR and SRTF branches do nothing (RR arrivals are enqueued from `simulate`;
the SRTF branch is an empty TODO in the source). -/
def enqueueArrived (alg : Algorithm) (procs : Nat → Process) (arrived : List Nat)
    (q : ReadyQueue) : ReadyQueue :=
  arrived.foldl (fun q2 idx =>
    match alg with
    | .FCFS => enqueue q2 (idx : Int)
    | .SJF => enqueue_priority q2 (idx : Int) procs
    | _ => q2) q

/-- handle_arrivals from scheduler_skeleton.c: returns the updated process
array, the list of indices that arrived this tick, and the updated queue. -/
def handle_arrivals (procs : Nat → Process) (process_count : Nat) (t : Int)
    (alg : Algorithm) (q : ReadyQueue) : (Nat → Process) × List Nat × ReadyQueue :=
  let r := arrivalsLoop t 0 process_count procs []
  (r.1, r.2, enqueueArrived alg r.1 r.2 q)

/-- CPU loop of handle_rr_quantum_expiry from scheduler_skeleton.c: for each
CPU holding a process with `remaining_time > 0` in state `RUNNING` whose
`quantum_used >= time_quantum`, reset the quantum, set the state back to
`READY`, enqueue its index at the back of the queue and free the CPU. -/
def rrExpiryLoop (time_quantum : Int) :
    Nat → Nat → ((Nat → Process) × (Nat → CPU) × ReadyQueue) →
    ((Nat → Process) × (Nat → CPU) × ReadyQueue)
  | _, 0, s => s
  | c, rem+1, (procs, cpus, q) =>
    match (cpus c).current_process with
    | none => rrExpiryLoop time_quantum (c+1) rem (procs, cpus, q)
    | some i =>
      if 0 < (procs i).remaining_time ∧ (procs i).state = .RUNNING then
        if time_quantum ≤ (procs i).quantum_used then
          rrExpiryLoop time_quantum (c+1) rem
            ((fun j => if j = i then
                { procs i with quantum_used := 0, state := .READY } else procs j),
             (fun d => if d = c then { cpus c with current_process := none } else cpus d),
             enqueue q (i : Int))
        else rrExpiryLoop time_quantum (c+1) rem (procs, cpus, q)
      else rrExpiryLoop time_quantum (c+1) rem (procs, cpus, q)

/-- handle_rr_quantum_expiry from scheduler_skeleton.c. -/
def handle_rr_quantum_expiry (procs : Nat → Process) (cpus : Nat → CPU)
    (cpu_count : Nat) (time_quantum : Int) (q : ReadyQueue) :
    (Nat → Process) × (Nat → CPU) × ReadyQueue :=
  rrExpiryLoop time_quantum 0 cpu_count (procs, cpus, q)

/-- handle_srtf_preemption from scheduler_skeleton.c: the function body
contains only a defensive NULL check, a `perror` and a TODO comment; it
performs no state change whatsoever. -/
def handle_srtf_preemption (procs : Nat → Process) (cpus : Nat → CPU) :
    (Nat → Process) × (Nat → CPU) :=
  (procs, cpus)

/-- Field updates performed on a process when it is dispatched to a CPU in
assign_processes_to_idle_cpus: state to `RUNNING`; on first dispatch
(`start_time == -1`) record `start_time` and derive `response_time`;
reset `quantum_used` on every dispatch. -/
def dispatchUpd (t : Int) (p : Process) : Process :=
  if p.start_time = -1 then
    { p with state := .RUNNING, start_time := t,
             response_time := t - p.arrival_time, quantum_used := 0 }
  else { p with state := .RUNNING, quantum_used := 0 }

/-- Result of assign_processes_to_idle_cpus, with the ghost `discarded` flag
recording whether the defensive discard-and-retry branch was executed. -/
structure AssignResult where
  procs : Nat → Process
  cpus : Nat → CPU
  queue : ReadyQueue
  discarded : Bool

/-- CPU-fill loop of assign_processes_to_idle_cpus from scheduler_skeleton.c:
for each CPU id `c` in increasing order, skip occupied CPUs, pop the front
of the queue (stopping when it is empty); a popped process that is already
`COMPLETED` or has `arrival_time > current_time` is discarded and the same
CPU slot is retried (`c--; continue;` in the C source), otherwise the
process is dispatched to the CPU.  Each iteration either advances `c` or
shrinks the queue, so `cpu_count + size + 1` fuel runs the loop to
completion. -/
def assignLoop (t : Int) (cpu_count : Nat) :
    Nat → Nat → (Nat → Process) → (Nat → CPU) → ReadyQueue → Bool → AssignResult
  | _, 0, procs, cpus, q, dis => ⟨procs, cpus, q, dis⟩
  | c, fuel+1, procs, cpus, q, dis =>
    if c < cpu_count then
      match (cpus c).current_process with
      | some _ => assignLoop t cpu_count (c+1) fuel procs cpus q dis
      | none =>
        let r := dequeue q
        if r.1 = -1 then ⟨procs, cpus, r.2, dis⟩
        else
          let i := r.1.toNat
          if (procs i).state = .COMPLETED ∨ t < (procs i).arrival_time then
            assignLoop t cpu_count c fuel procs cpus r.2 true
          else
            assignLoop t cpu_count (c+1) fuel
              (fun j => if j = i then dispatchUpd t (procs j) else procs j)
              (fun d => if d = c then { cpus c with current_process := some i } else cpus d)
              r.2 dis
    else ⟨procs, cpus, q, dis⟩

/-- assign_processes_to_idle_cpus from scheduler_skeleton.c.  The C function
also receives `process_count` and `algorithm` parameters but its body uses
neither, so they are omitted here. -/
def assign_processes_to_idle_cpus (procs : Nat → Process) (cpus : Nat → CPU)
    (cpu_count : Nat) (q : ReadyQueue) (t : Int) : AssignResult :=
  assignLoop t cpu_count 0 (cpu_count + q.size + 1) procs cpus q false

/-- Loop of update_waiting_times from scheduler_skeleton.c: increment
`waiting_time` of every process whose state is `WAITING` (not `READY`) and
whose `arrival_time <= current_time`. -/
def waitingLoop (t : Int) : Nat → Nat → (Nat → Process) → (Nat → Process)
  | _, 0, procs => procs
  | w, rem+1, procs =>
    if (procs w).state = .WAITING ∧ (procs w).arrival_time ≤ t then
      waitingLoop t (w+1) rem
        (fun j => if j = w then
            { procs w with waiting_time := (procs w).waiting_time + 1 } else procs j)
    else waitingLoop t (w+1) rem procs

/-- update_waiting_times from scheduler_skeleton.c. -/
def update_waiting_times (procs : Nat → Process) (process_count : Nat) (t : Int) :
    Nat → Process :=
  waitingLoop t 0 process_count procs

/-- CPU loop of execute_processes from scheduler_skeleton.c: each CPU holding
a process decrements its `remaining_time`, increments `busy_time` and
`quantum_used`; when `remaining_time <= 0` the process is retired
(`finish_time = current_time + 1`, state `COMPLETED`, CPU freed, completed
counter incremented).  Idle CPUs increment `idle_time`. -/
def executeLoop (t : Int) :
    Nat → Nat → ((Nat → Process) × (Nat → CPU) × Int) →
    ((Nat → Process) × (Nat → CPU) × Int)
  | _, 0, s => s
  | c, rem+1, (procs, cpus, completed) =>
    match (cpus c).current_process with
    | some i =>
      let p := { procs i with
                 remaining_time := (procs i).remaining_time - 1
                 quantum_used := (procs i).quantum_used + 1 }
      if p.remaining_time ≤ 0 then
        executeLoop t (c+1) rem
          ((fun j => if j = i then { p with finish_time := t + 1, state := .COMPLETED }
                     else procs j),
           (fun d => if d = c then
               { cpus c with busy_time := (cpus c).busy_time + 1, current_process := none }
             else cpus d),
           completed + 1)
      else
        executeLoop t (c+1) rem
          ((fun j => if j = i then p else procs j),
           (fun d => if d = c then { cpus c with busy_time := (cpus c).busy_time + 1 }
                     else cpus d),
           completed)
    | none =>
      executeLoop t (c+1) rem
        (procs,
         (fun d => if d = c then { cpus c with idle_time := (cpus c).idle_time + 1 }
                   else cpus d),
         completed)

/-- execute_processes from scheduler_skeleton.c. -/
def execute_processes (procs : Nat → Process) (cpus : Nat → CPU) (cpu_count : Nat)
    (t : Int) (completed_count : Int) : (Nat → Process) × (Nat → CPU) × Int :=
  executeLoop t 0 cpu_count (procs, cpus, completed_count)

/-- Mutable state of the simulate loop in scheduler_skeleton.c.  `aborted`
and `discarded` are ghost observations (see the file header). -/
structure SimState where
  procs : Nat → Process
  cpus : Nat → CPU
  queue : ReadyQueue
  current_time : Int
  completed_count : Int
  timeline_capacity : Int
  bruh : Nat
  aborted : Bool
  discarded : Bool

/-- Body of one iteration of the main simulation loop in simulate
(scheduler_skeleton.c): arrivals, RR arrival-enqueue + quantum expiry,
SRTF preemption, dispatch, timeline capacity doubling, waiting-time update,
execution, and the time increment. -/
def tick (process_count cpu_count : Nat) (alg : Algorithm) (time_quantum : Int)
    (st : SimState) : SimState :=
  let a := handle_arrivals st.procs process_count st.current_time alg st.queue
  let procs1 := a.1
  let arrived := a.2.1
  let q1 := a.2.2
  let b :=
    if alg = .RR then
      let q15 := arrived.foldl (fun qq idx => enqueue qq (idx : Int)) q1
      handle_rr_quantum_expiry procs1 st.cpus cpu_count time_quantum q15
    else (procs1, st.cpus, q1)
  let c := if alg = .SRTF then handle_srtf_preemption b.1 b.2.1 else (b.1, b.2.1)
  let ar := assign_processes_to_idle_cpus c.1 c.2 cpu_count b.2.2 st.current_time
  let cap := if st.timeline_capacity ≤ st.current_time
             then st.timeline_capacity * 2 else st.timeline_capacity
  let procs4 := update_waiting_times ar.procs process_count st.current_time
  let e := execute_processes procs4 ar.cpus cpu_count st.current_time st.completed_count
  { procs := e.1
    cpus := e.2.1
    queue := ar.queue
    current_time := st.current_time + 1
    completed_count := e.2.2
    timeline_capacity := cap
    bruh := st.bruh
    aborted := st.aborted
    discarded := st.discarded || ar.discarded }

/-- Main simulation loop of simulate (scheduler_skeleton.c): run ticks while
`completed_count < process_count`; after each tick, if
`current_time > timeline_capacity * 5` with processes incomplete, print the
"exceeded maximum expected time" warning (ghost flag `aborted`) and stop;
then increment the debug counter `bruh` and stop silently once it exceeds
100. -/
def simLoop (process_count cpu_count : Nat) (alg : Algorithm) (time_quantum : Int) :
    Nat → SimState → SimState
  | 0, st => st
  | fuel+1, st =>
    if st.completed_count < (process_count : Int) then
      let st1 := tick process_count cpu_count alg time_quantum st
      if st1.timeline_capacity * 5 < st1.current_time ∧
          st1.completed_count < (process_count : Int) then
        { st1 with aborted := true }
      else
        let st2 := { st1 with bruh := st1.bruh + 1 }
        if 100 < st2.bruh then st2
        else simLoop process_count cpu_count alg time_quantum fuel st2
    else st

/-- Simulation state at the top of simulate (scheduler_skeleton.c): CPUs are
`calloc`-zeroed with ids `0..cpu_count-1`, the global queue was initialized
by `main`, time and counters start at zero, and the timeline starts with
`INITIAL_TIMELINE_CAPACITY = 1000` rows. -/
def initState (procs : Nat → Process) : SimState :=
  { procs := procs
    cpus := fun c => ⟨(c : Int), none, 0, 0⟩
    queue := init_queue
    current_time := 0
    completed_count := 0
    timeline_capacity := 1000
    bruh := 0
    aborted := false
    discarded := false }

/-- simulate from scheduler_skeleton.c.  The C loop performs at most 101
iterations before the `bruh > 100` debug break stops it, so fuel 102 is
never exhausted and the recursion computes exactly what the C loop does
(`simLoop_fuel_independent` below makes this formal). -/
def simulate (procs : Nat → Process) (process_count cpu_count : Nat)
    (alg : Algorithm) (time_quantum : Int) : SimState :=
  simLoop process_count cpu_count alg time_quantum 102 (initState procs)

/-- Placeholder process for indices beyond the loaded process count; the
simulation loops never read it. -/
def dummyProc : Process := load_process 0 0 0 0

/-- Input of the spec's SRTF example: processes `(1,0,8)` and `(2,1,4)`. -/
def procsSRTF2 : Nat → Process := fun i =>
  if i = 0 then load_process 1 0 8 0 else if i = 1 then load_process 2 1 4 0 else dummyProc

/-- The spec's SRTF example run: `{(1,0,8),(2,1,4)}`, 1 CPU, SRTF. -/
def runSRTF2 : SimState := simulate procsSRTF2 2 1 .SRTF 2

/-- Single process `(1,0,200)` whose burst exceeds the 101 iterations the
debug break allows. -/
def procsLong : Nat → Process := fun i =>
  if i = 0 then load_process 1 0 200 0 else dummyProc

/-- Run of `{(1,0,200)}`, 1 CPU, FCFS. -/
def runLong : SimState := simulate procsLong 1 1 .FCFS 2

/-- Two same-tick processes `(1,0,2)` and `(2,0,2)`; the second waits in the
ready queue for two ticks. -/
def procsWait : Nat → Process := fun i =>
  if i = 0 then load_process 1 0 2 0 else if i = 1 then load_process 2 0 2 0 else dummyProc

/-- Run of `{(1,0,2),(2,0,2)}`, 1 CPU, FCFS. -/
def runWait : SimState := simulate procsWait 2 1 .FCFS 2

/-- Two processes with equal `remaining_time` 5 and priorities 0 and 7, for
the `enqueue_priority` tie-break. -/
def procsTie : Nat → Process := fun i =>
  if i = 0 then load_process 1 0 5 0 else if i = 1 then load_process 2 0 5 7 else dummyProc

/-- Queue holding only process index 0. -/
def qTie : ReadyQueue := enqueue init_queue 0

/-- A ready queue at full capacity (`size = MAX_PROCESSES`). -/
def qFull : ReadyQueue := ⟨fun _ => 0, 0, 499, 500⟩

/-- The comparator used by `enqueue_priority` in scheduler_skeleton.c: the
new entry `n` ranks strictly better than the existing entry `e` iff its
`remaining_time` is smaller, or the `remaining_time`s are equal and its
`priority` value is larger. -/
def beatsB (procs : Nat → Process) (n e : Int) : Bool :=
  decide ((procs n.toNat).remaining_time < (procs e.toNat).remaining_time ∨
    ((procs n.toNat).remaining_time = (procs e.toNat).remaining_time ∧
     (procs e.toNat).priority < (procs n.toNat).priority))

/-- Comparison of two queue entries by the `remaining_time` of the processes
they index. -/
def remLE (procs : Nat → Process) (a b : Int) : Prop :=
  (procs a.toNat).remaining_time ≤ (procs b.toNat).remaining_time

/-- Spec-side pop: walk the ready list from the front, discarding every entry
whose process is already completed or has not yet arrived, and return the
first remaining (eligible) entry together with the rest of the list, or
`none` when the list runs out.  Written from the claim's words ("pop the
front of the ready queue; a popped process that has not yet arrived or is
already completed is discarded"), to be compared with the loop from the
source. -/
def popEligible (t : Int) (procs : Nat → Process) : List Int → Option (Int × List Int)
  | [] => none
  | e :: rest =>
    if (procs e.toNat).state = .COMPLETED ∨ t < (procs e.toNat).arrival_time then
      popEligible t procs rest
    else some (e, rest)

/-- Spec-side bookkeeping of a dispatch, written from the claim's words: the
process becomes `RUNNING`; on its first dispatch (`start_time` unset)
`start_time` is recorded and `response_time = start_time - arrival_time`
is derived; `quantum_used` is reset to 0 on every dispatch. -/
def dispatchMark (t : Int) (p : Process) : Process :=
  { p with
    state := .RUNNING
    quantum_used := 0
    start_time := if p.start_time = -1 then t else p.start_time
    response_time := if p.start_time = -1 then t - p.arrival_time else p.response_time }

/-- Spec-side reference dispatcher, written from the claim's words: consider
CPUs in increasing id order; skip occupied CPUs; for each idle CPU pop
entries off the front of the ready list, discarding stale ones while
staying at the same CPU slot (`popEligible`), and dispatch the first
eligible process to that CPU; when the list runs out the loop stops (an
idle CPU is never left unfilled while eligible ready work exists).  It is
proved equal to `assign_processes_to_idle_cpus` from the source. -/
def dispatchRef (t : Int) : Nat → Nat → (Nat → Process) → (Nat → CPU) → List Int →
    ((Nat → Process) × (Nat → CPU) × List Int)
  | _, 0, procs, cpus, l => (procs, cpus, l)
  | c, rem+1, procs, cpus, l =>
    match (cpus c).current_process with
    | some _ => dispatchRef t (c+1) rem procs cpus l
    | none =>
      match popEligible t procs l with
      | none => (procs, cpus, [])
      | some (e, rest) =>
        dispatchRef t (c+1) rem
          (fun j => if j = e.toNat then dispatchMark t (procs j) else procs j)
          (fun d => if d = c then { cpus c with current_process := some e.toNat }
                    else cpus d)
          rest

/-- Guard under which handle_rr_quantum_expiry requeues a running process. -/
def rrExpires (time_quantum : Int) (p : Process) : Prop :=
  0 < p.remaining_time ∧ p.state = .RUNNING ∧ time_quantum ≤ p.quantum_used

instance (time_quantum : Int) (p : Process) : Decidable (rrExpires time_quantum p) :=
  inferInstanceAs (Decidable (0 < p.remaining_time ∧ p.state = .RUNNING ∧
    time_quantum ≤ p.quantum_used))

/-- Indices (in increasing CPU order) of the processes whose quantum expires
this tick. -/
def expiredIdxList (procs : Nat → Process) (cpus : Nat → CPU) (time_quantum : Int)
    (cpu_count : Nat) : List Int :=
  (List.range cpu_count).filterMap fun c =>
    match (cpus c).current_process with
    | some i => if rrExpires time_quantum (procs i) then some (i : Int) else none
    | none => none

/-- Specification of one call of handle_rr_quantum_expiry: the expired
processes are appended, in CPU order, at the back of the queue; each
expired process goes back to `READY` with `quantum_used` reset and its CPU
freed; every other CPU and every other process is untouched (in
particular, a process whose `remaining_time` is not positive, e.g. one
that completed as its quantum expired, is not requeued). -/
def RRExpirySpec (procs : Nat → Process) (cpus : Nat → CPU) (cpu_count : Nat)
    (time_quantum : Int) (q : ReadyQueue)
    (r : (Nat → Process) × (Nat → CPU) × ReadyQueue) : Prop :=
  r.2.2.toList = q.toList ++ expiredIdxList procs cpus time_quantum cpu_count ∧
  (∀ c, c < cpu_count → ∀ i, (cpus c).current_process = some i →
      (rrExpires time_quantum (procs i) →
        (r.2.1 c).current_process = none ∧
        r.1 i = { procs i with quantum_used := 0, state := .READY }) ∧
      (¬ rrExpires time_quantum (procs i) → r.2.1 c = cpus c ∧ r.1 i = procs i)) ∧
  (∀ c, c < cpu_count → (cpus c).current_process = none → r.2.1 c = cpus c) ∧
  (∀ c, cpu_count ≤ c → r.2.1 c = cpus c) ∧
  (∀ j, (∀ c, c < cpu_count → (cpus c).current_process ≠ some j) → r.1 j = procs j)

/-- Witness input for the dispatch specification: one ready process, one
idle CPU. -/
def wProcsA : Nat → Process := fun _ =>
  { load_process 1 0 3 0 with state := .READY }

/-- Witness input: a single idle CPU. -/
def wCpusIdle : Nat → CPU := fun c => ⟨(c : Int), none, 0, 0⟩

/-- Witness queue holding process index 0. -/
def wQueueA : ReadyQueue := enqueue init_queue 0

/-- Witness input for the quantum-expiry specification: a process that has
been running for a full quantum with work left. -/
def wProcsB : Nat → Process := fun _ =>
  { load_process 1 0 5 0 with state := .RUNNING, remaining_time := 3, quantum_used := 2 }

/-- Witness input: CPU 0 runs process 0, all other CPUs idle. -/
def wCpusB : Nat → CPU := fun c =>
  if c = 0 then ⟨0, some 0, 0, 0⟩ else ⟨(c : Int), none, 0, 0⟩

/-- Sum of `busy_time` over the CPUs, as in the conservation property. -/
def busySum (st : SimState) (cpu_count : Nat) : Int :=
  ∑ c ∈ Finset.range cpu_count, (st.cpus c).busy_time

/-- Sum of `burst_time` over the completed processes, as in the conservation
property. -/
def completedBurstSum (st : SimState) (process_count : Nat) : Int :=
  ∑ i ∈ Finset.range process_count,
    if (st.procs i).state = .COMPLETED then (st.procs i).burst_time else 0


/-- Comparator of `enqueue_priority` with the new entry's key values passed
explicitly (as the C code reads them into `new_time`/`new_priority`). -/
def beatsValsB (procs : Nat → Process) (nt np : Int) (e : Int) : Bool :=
  decide (nt < (procs e.toNat).remaining_time ∨
    (nt = (procs e.toNat).remaining_time ∧ (procs e.toNat).priority < np))

/-- Intermediate specification of the quantum-expiry loop, generalized over
the starting CPU id `c` (the claim's statement is the instance `c = 0` via
`RRExpirySpec`). -/
def RRAux (time_quantum : Int) (c rem : Nat) (procs : Nat → Process)
    (cpus : Nat → CPU) (q : ReadyQueue)
    (r : (Nat → Process) × (Nat → CPU) × ReadyQueue) : Prop :=
  r.2.2.toList = q.toList ++ (List.range' c rem).filterMap (fun d =>
      match (cpus d).current_process with
      | some i => if rrExpires time_quantum (procs i) then some (i : Int) else none
      | none => none) ∧
  (∀ d, c ≤ d → d < c + rem → ∀ i, (cpus d).current_process = some i →
     (rrExpires time_quantum (procs i) →
        (r.2.1 d).current_process = none ∧
        r.1 i = { procs i with quantum_used := 0, state := .READY }) ∧
     (¬ rrExpires time_quantum (procs i) → r.2.1 d = cpus d ∧ r.1 i = procs i)) ∧
  (∀ d, d < c ∨ c + rem ≤ d ∨ (cpus d).current_process = none → r.2.1 d = cpus d) ∧
  (∀ j, (∀ d, c ≤ d → d < c + rem → (cpus d).current_process ≠ some j) →
     r.1 j = procs j) ∧
  (∀ j, r.1 j = procs j ∨
     r.1 j = { procs j with quantum_used := 0, state := .READY }) ∧
  QInv r.2.2

/-- Mid-tick well-formedness of the scheduler state, holding between the
arrival phase and the dispatch phase of a tick at time `t`: the queue is
structurally sound, holds no duplicates, and every queued index denotes an
in-range `READY` process that has arrived; every occupied CPU holds an
in-range arrived `RUNNING` process that is not queued and is held by no
other CPU. -/
def MidInv (n cpu_count : Nat) (t : Int) (procs : Nat → Process)
    (cpus : Nat → CPU) (q : ReadyQueue) : Prop :=
  QInv q ∧ q.toList.Nodup ∧
  (∀ e ∈ q.toList, 0 ≤ e ∧ e.toNat < n ∧ (procs e.toNat).arrival_time ≤ t ∧
    (procs e.toNat).state = .READY) ∧
  (∀ d i, d < cpu_count → (cpus d).current_process = some i →
    i < n ∧ (procs i).arrival_time ≤ t ∧ (procs i).state = .RUNNING ∧
    (i : Int) ∉ q.toList ∧
    ∀ d2, d2 < cpu_count → (cpus d2).current_process = some i → d2 = d)

/-- Loop-head invariant of the main simulation loop: as `MidInv`, but every
queued or running process arrived strictly before `current_time` (it was
admitted during an earlier tick). -/
def SimInv (n cpu_count : Nat) (st : SimState) : Prop :=
  QInv st.queue ∧ st.queue.toList.Nodup ∧
  (∀ e ∈ st.queue.toList, 0 ≤ e ∧ e.toNat < n ∧
    (st.procs e.toNat).arrival_time < st.current_time ∧
    (st.procs e.toNat).state = .READY) ∧
  (∀ d i, d < cpu_count → (st.cpus d).current_process = some i →
    i < n ∧ (st.procs i).arrival_time < st.current_time ∧
    (st.procs i).state = .RUNNING ∧ (i : Int) ∉ st.queue.toList ∧
    ∀ d2, d2 < cpu_count → (st.cpus d2).current_process = some i → d2 = d)

/-- A one-process FCFS input used to instantiate the discard-branch
unreachability theorem on a concrete run. -/
def procsC10 : Nat → Process := fun _ => load_process 1 0 3 0

/-! ## Theorems -/

/-- Claim C1 (code_bug evidence): on the spec's own SRTF example
`{(1,0,8),(2,1,4)}` with 1 CPU, the code never dispatches any process:
`handle_srtf_preemption` is an empty TODO and the SRTF branch of
`handle_arrivals` never enqueues arrivals, so both processes stay `READY`
forever, nothing completes (the claim says pid 2 completes at tick 5 and
pid 1 at tick 12), and the run only stops via the debug iteration cap. -/
theorem C1_srtf_example_never_executes :
    runSRTF2.completed_count = 0 ∧
    (runSRTF2.procs 0).start_time = -1 ∧ (runSRTF2.procs 0).finish_time = -1 ∧
    (runSRTF2.procs 1).start_time = -1 ∧ (runSRTF2.procs 1).finish_time = -1 ∧
    (runSRTF2.cpus 0).busy_time = 0 ∧ (runSRTF2.cpus 0).idle_time = 101 := by
  decide

/-- Claim C2 (code_bug evidence): under SRTF, a process arriving at the
current tick is marked `READY` by `handle_arrivals` but is never inserted
into the ready queue, and over the whole example run it never becomes
eligible for dispatch (its `start_time` stays `-1` and the queue stays
empty). -/
theorem C2_srtf_arrival_not_enqueued :
    ((handle_arrivals procsSRTF2 2 0 .SRTF init_queue).1 0).state = .READY ∧
    (handle_arrivals procsSRTF2 2 0 .SRTF init_queue).2.2.size = 0 ∧
    (runSRTF2.procs 0).state = .READY ∧ (runSRTF2.procs 0).start_time = -1 ∧
    runSRTF2.queue.size = 0 := by
  decide

/-- Claim C3 (code_bug evidence): on `{(1,0,200)}`, FCFS, 1 CPU, the main
loop stops after 101 iterations because of the leftover `bruh > 100` debug
break: the run ends at `current_time = 101` with the process incomplete
(`remaining_time = 99`) and without the defensive-bound warning being
printed (`aborted = false`) — a silent truncation by a condition the claim
says does not exist. -/
theorem C3_debug_break_truncates_silently :
    runLong.current_time = 101 ∧ runLong.completed_count = 0 ∧
    runLong.aborted = false ∧ runLong.bruh = 101 ∧
    (runLong.procs 0).state = .RUNNING ∧ (runLong.procs 0).remaining_time = 99 := by
  decide

/-- Claim C4 (code_bug evidence): on `{(1,0,2),(2,0,2)}`, FCFS, 1 CPU, the
second process sits `READY` in the queue during ticks 0 and 1 (its
turnaround minus burst is 2), yet its `waiting_time` counter stays 0:
`update_waiting_times` tests `state == WAITING` while arrived queued
processes are in state `READY`, so no Ready process ever gains waiting
time. -/
theorem C4_ready_gains_no_waiting_time :
    (runWait.procs 1).state = .COMPLETED ∧
    (runWait.procs 1).finish_time - (runWait.procs 1).arrival_time -
      (runWait.procs 1).burst_time = 2 ∧
    (runWait.procs 1).waiting_time = 0 ∧
    (runWait.procs 0).waiting_time = 0 := by
  decide

/-- Claim C5 (code_bug evidence): on the truncated run `{(1,0,200)}`, FCFS,
1 CPU, the simulation returns with `busySum = 101` while the burst-sum
over completed processes is 0, and the process ends in state `RUNNING`
with `remaining_time = 99 ≠ 0` — both conjuncts of the conservation claim
fail on a run the code actually produces. -/
theorem C5_conservation_fails_on_truncated_run :
    busySum runLong 1 = 101 ∧ completedBurstSum runLong 1 = 0 ∧
    (runLong.procs 0).state ≠ .COMPLETED ∧ (runLong.procs 0).remaining_time = 99 := by
  decide

/-- Claim C8 (counterexample): inserting process 1 (`remaining_time` 5,
`priority` 7) into a queue holding process 0 (`remaining_time` 5,
`priority` 0) places the *larger* priority value first: the result is
`[1, 0]`, not the `[0, 1]` required by the claim's "lower value = more
important" convention (the code's own header comment says higher value =
higher priority). -/
theorem C8_priority_tie_break_uses_larger_value_first :
    (procsTie 1).priority = 7 ∧ (procsTie 0).priority = 0 ∧
    (procsTie 1).remaining_time = (procsTie 0).remaining_time ∧
    (enqueue_priority qTie 1 procsTie).toList = [1, 0] ∧
    (enqueue_priority qTie 1 procsTie).toList ≠ [0, 1] := by
  decide

/-- Claim C9: an enqueue on a full ready queue (either `enqueue` or
`enqueue_priority`) reports the overflow on stderr and leaves the queue —
all of its fields, hence its contents — completely unchanged. -/
theorem C9_overflow_reported_queue_unchanged (q : ReadyQueue) (i : Int)
    (procs : Nat → Process) (h : MAX_PROCESSES ≤ q.size) :
    enqueue q i = q ∧ enqueue_priority q i procs = q ∧
    enqueue_overflow_reported q = true := by
  refine ⟨?_, ?_, ?_⟩ <;>
    simp [enqueue, enqueue_priority, enqueue_overflow_reported, h]

/-- Witness for C9 at a concrete full queue. -/
theorem C9_overflow_witness :
    MAX_PROCESSES ≤ qFull.size ∧
    (enqueue qFull 0 = qFull ∧ enqueue_priority qFull 0 procsTie = qFull ∧
     enqueue_overflow_reported qFull = true) :=
  ⟨by decide, C9_overflow_reported_queue_unchanged qFull 0 procsTie (by decide)⟩


/-! ### Basic queue lemmas -/

theorem beatsB_eq_vals (procs : Nat → Process) (n e : Int) :
    beatsB procs n e =
      beatsValsB procs (procs n.toNat).remaining_time (procs n.toNat).priority e := rfl

theorem toList_length (q : ReadyQueue) : q.toList.length = q.size := by
  simp [ReadyQueue.toList]

theorem toList_getElem (q : ReadyQueue) (k : Nat) (h : k < q.toList.length) :
    q.toList[k] = q.process_indices ((q.front + k) % MAX_PROCESSES) := by
  simp [ReadyQueue.toList]

theorem init_queue_QInv : QInv init_queue := by
  refine ⟨?_, ?_, ?_, ?_⟩ <;> decide

theorem rear_succ_toNat (q : ReadyQueue) (hq : QInv q) :
    ((q.rear + 1) % (MAX_PROCESSES : Int)).toNat = (q.front + q.size) % MAX_PROCESSES := by
  by_cases h : q.rear = -1
  · obtain ⟨hs, hf⟩ := hq.rear_neg h
    rw [h, hs, hf]
    decide
  · exact (hq.rear_nonneg h).2.2

theorem QInv_push (q : ReadyQueue) (f : Nat → Int) (hq : QInv q)
    (hsz : q.size < MAX_PROCESSES) :
    QInv { q with rear := (q.rear + 1) % (MAX_PROCESSES : Int),
                  process_indices := f, size := q.size + 1 } := by
  have hrn := rear_succ_toNat q hq
  have hrr : q.rear = -1 ∨ 0 ≤ q.rear := by
    by_cases h : q.rear = -1
    · exact Or.inl h
    · exact Or.inr (hq.rear_nonneg h).1
  have hge : 0 ≤ (q.rear + 1) % (MAX_PROCESSES : Int) := Int.emod_nonneg _ (by decide)
  have hlt : (q.rear + 1) % (MAX_PROCESSES : Int) < (MAX_PROCESSES : Int) :=
    Int.emod_lt_of_pos _ (by decide)
  have hfl := hq.front_lt
  refine ⟨hfl, show q.size + 1 ≤ MAX_PROCESSES by omega, ?_, ?_⟩
  · intro hc
    have hc' : (q.rear + 1) % (MAX_PROCESSES : Int) = -1 := hc
    omega
  · intro _
    refine ⟨hge, hlt, ?_⟩
    show (((q.rear + 1) % (MAX_PROCESSES : Int) + 1) % (MAX_PROCESSES : Int)).toNat =
      (q.front + (q.size + 1)) % MAX_PROCESSES
    simp only [MAX_PROCESSES] at *
    omega

theorem QInv_enqueue (q : ReadyQueue) (i : Int) (hq : QInv q) : QInv (enqueue q i) := by
  by_cases h : MAX_PROCESSES ≤ q.size
  · simpa [enqueue, h] using hq
  · simp only [enqueue, if_neg h]
    exact QInv_push q _ hq (by omega)

theorem toList_enqueue (q : ReadyQueue) (i : Int) (hq : QInv q)
    (hsz : q.size < MAX_PROCESSES) :
    (enqueue q i).toList = q.toList ++ [i] := by
  have hno : ¬ MAX_PROCESSES ≤ q.size := by omega
  have hrn := rear_succ_toNat q hq
  simp only [enqueue, if_neg hno, ReadyQueue.toList, List.range_succ, List.map_append,
    List.map_cons, List.map_nil]
  congr 1
  · refine List.map_congr_left (fun k hk => ?_)
    have hk' : k < q.size := List.mem_range.mp hk
    rw [hrn]
    have hne : (q.front + k) % MAX_PROCESSES ≠ (q.front + q.size) % MAX_PROCESSES := by
      simp only [MAX_PROCESSES] at *; omega
    simp [hne]
  · rw [hrn]
    simp

theorem dequeue_of_empty (q : ReadyQueue) (h : q.size = 0) : dequeue q = (-1, q) := by
  simp [dequeue, h]

theorem toList_of_empty (q : ReadyQueue) (h : q.size = 0) : q.toList = [] := by
  simp [ReadyQueue.toList, h]

theorem toList_dequeue (q : ReadyQueue) (hq : QInv q) (h : q.size ≠ 0) :
    q.toList = (dequeue q).1 :: (dequeue q).2.toList := by
  have hfl := hq.front_lt
  simp only [dequeue, if_neg h, ReadyQueue.toList]
  obtain ⟨m, hm⟩ : ∃ m, q.size = m + 1 := ⟨q.size - 1, by omega⟩
  rw [hm]
  simp only [Nat.add_sub_cancel]
  rw [List.range_succ_eq_map]
  simp only [List.map_cons, List.map_map]
  congr 1
  · have h0 : (q.front + 0) % MAX_PROCESSES = q.front := by
      simp only [MAX_PROCESSES] at *; omega
    rw [h0]
  · refine List.map_congr_left (fun k hk => ?_)
    simp only [Function.comp_apply]
    congr 1
    simp only [MAX_PROCESSES, Nat.succ_eq_add_one] at *
    omega

theorem QInv_dequeue (q : ReadyQueue) (hq : QInv q) : QInv (dequeue q).2 := by
  by_cases h : q.size = 0
  · simpa [dequeue, h] using hq
  · simp only [dequeue, if_neg h]
    have h1 := hq.front_lt
    have h2 := hq.size_le
    refine ⟨?_, show q.size - 1 ≤ MAX_PROCESSES by omega, ?_, ?_⟩
    · show (q.front + 1) % MAX_PROCESSES < MAX_PROCESSES
      simp only [MAX_PROCESSES] at *; omega
    · intro hr; have := hq.rear_neg hr; omega
    · intro hr
      obtain ⟨g1, g2, g3⟩ := hq.rear_nonneg hr
      refine ⟨g1, g2, ?_⟩
      show ((q.rear + 1) % (MAX_PROCESSES : Int)).toNat =
        ((q.front + 1) % MAX_PROCESSES + (q.size - 1)) % MAX_PROCESSES
      simp only [MAX_PROCESSES] at *
      omega

/-! ### Scan and shift loop characterizations -/

theorem scanLoop_spec (procs : Nat → Process) (nt np : Int) (q : ReadyQueue)
    (hf : q.front < MAX_PROCESSES) (hsz : q.size < MAX_PROCESSES) :
    ∀ (d j fuel : Nat), j + d = q.size → d < fuel →
      scanLoop procs ((q.front + q.size) % MAX_PROCESSES) nt np q.process_indices
        ((q.front + j) % MAX_PROCESSES) fuel =
      (q.front + (j + ((q.toList.drop j).takeWhile
          fun e => !beatsValsB procs nt np e).length)) % MAX_PROCESSES := by
  intro d
  induction d with
  | zero =>
    intro j fuel hj hfu
    obtain ⟨f, rfl⟩ : ∃ f, fuel = f + 1 := ⟨fuel - 1, by omega⟩
    have hj' : j = q.size := by omega
    subst hj'
    have hdz : q.toList.drop q.size = [] := by
      apply List.drop_of_length_le; rw [toList_length]
    rw [scanLoop, if_pos rfl, hdz]
    simp
  | succ d ih =>
    intro j fuel hj hfu
    obtain ⟨f, rfl⟩ : ∃ f, fuel = f + 1 := ⟨fuel - 1, by omega⟩
    have hjlt : j < q.size := by omega
    have hjl : j < q.toList.length := by rw [toList_length]; omega
    have hne : (q.front + j) % MAX_PROCESSES ≠ (q.front + q.size) % MAX_PROCESSES := by
      simp only [MAX_PROCESSES] at *; omega
    have hdrop : q.toList.drop j = q.toList[j] :: q.toList.drop (j+1) :=
      List.drop_eq_getElem_cons hjl
    have hgj : q.toList[j] = q.process_indices ((q.front + j) % MAX_PROCESSES) :=
      toList_getElem q j hjl
    rw [scanLoop, if_neg hne]
    by_cases hb : nt < (procs (q.process_indices ((q.front + j) % MAX_PROCESSES)).toNat).remaining_time ∨
        (nt = (procs (q.process_indices ((q.front + j) % MAX_PROCESSES)).toNat).remaining_time ∧
          (procs (q.process_indices ((q.front + j) % MAX_PROCESSES)).toNat).priority < np)
    · rw [if_pos hb, hdrop, List.takeWhile_cons_of_neg]
      · simp
      · simp [beatsValsB, hgj, hb]
    · rw [if_neg hb]
      have hcur : ((q.front + j) % MAX_PROCESSES + 1) % MAX_PROCESSES =
          (q.front + (j+1)) % MAX_PROCESSES := by
        simp only [MAX_PROCESSES] at *; omega
      rw [hcur, ih (j+1) f (by omega) (by omega), hdrop, List.takeWhile_cons_of_pos]
      · simp only [List.length_cons]
        congr 1
        omega
      · simp [beatsValsB, hgj, hb]

theorem scanLoop_spec0 (procs : Nat → Process) (nt np : Int) (q : ReadyQueue)
    (hf : q.front < MAX_PROCESSES) (hsz : q.size < MAX_PROCESSES)
    (fuel : Nat) (hfu : q.size < fuel) :
    scanLoop procs ((q.front + q.size) % MAX_PROCESSES) nt np q.process_indices
        q.front fuel =
      (q.front + (q.toList.takeWhile fun e => !beatsValsB procs nt np e).length)
        % MAX_PROCESSES := by
  have h := scanLoop_spec procs nt np q hf hsz q.size 0 fuel (by omega) hfu
  have h0 : (q.front + 0) % MAX_PROCESSES = q.front := by
    simp only [MAX_PROCESSES] at *; omega
  rw [h0] at h
  simpa using h

theorem shiftLoop_out : ∀ (s fuel cur : Nat) (data : Nat → Int) (temp : Int) (x : Nat),
    cur < MAX_PROCESSES → s < MAX_PROCESSES → s < fuel →
    (∀ m, 1 ≤ m → m ≤ s → x ≠ (cur + m) % MAX_PROCESSES) →
    shiftLoop ((cur + s) % MAX_PROCESSES) data temp cur fuel x = data x := by
  intro s
  induction s with
  | zero =>
    intro fuel cur data temp x hcur _ hfu _
    obtain ⟨f, rfl⟩ : ∃ f, fuel = f + 1 := ⟨fuel - 1, by omega⟩
    have h0 : (cur + 0) % MAX_PROCESSES = cur := by
      simp only [MAX_PROCESSES] at *; omega
    rw [h0, shiftLoop, if_pos rfl]
  | succ s ih =>
    intro fuel cur data temp x hcur hs hfu hx
    obtain ⟨f, rfl⟩ : ∃ f, fuel = f + 1 := ⟨fuel - 1, by omega⟩
    have hne : cur ≠ (cur + (s+1)) % MAX_PROCESSES := by
      simp only [MAX_PROCESSES] at *; omega
    rw [shiftLoop, if_neg hne]
    have hrear : (cur + (s+1)) % MAX_PROCESSES =
        ((cur + 1) % MAX_PROCESSES + s) % MAX_PROCESSES := by
      simp only [MAX_PROCESSES] at *; omega
    rw [hrear, ih f ((cur+1) % MAX_PROCESSES) _ _ x
      (by simp only [MAX_PROCESSES] at *; omega) (by omega) (by omega) ?_]
    · have hx1 : x ≠ (cur + 1) % MAX_PROCESSES := hx 1 (by omega) (by omega)
      simp [hx1]
    · intro m hm1 hm2
      have heq : ((cur+1) % MAX_PROCESSES + m) % MAX_PROCESSES =
          (cur + (m+1)) % MAX_PROCESSES := by
        simp only [MAX_PROCESSES] at *; omega
      rw [heq]
      exact hx (m+1) (by omega) (by omega)

theorem shiftLoop_in : ∀ (s fuel cur : Nat) (data : Nat → Int) (temp : Int) (m : Nat),
    cur < MAX_PROCESSES → s < MAX_PROCESSES → s < fuel → 1 ≤ m → m ≤ s →
    shiftLoop ((cur + s) % MAX_PROCESSES) data temp cur fuel ((cur + m) % MAX_PROCESSES) =
      if m = 1 then temp else data ((cur + (m - 1)) % MAX_PROCESSES) := by
  intro s
  induction s with
  | zero => intro _ _ _ _ m _ _ _ h1 h2; omega
  | succ s ih =>
    intro fuel cur data temp m hcur hs hfu hm1 hm2
    obtain ⟨f, rfl⟩ : ∃ f, fuel = f + 1 := ⟨fuel - 1, by omega⟩
    have hne : cur ≠ (cur + (s+1)) % MAX_PROCESSES := by
      simp only [MAX_PROCESSES] at *; omega
    rw [shiftLoop, if_neg hne]
    have hrear : (cur + (s+1)) % MAX_PROCESSES =
        ((cur + 1) % MAX_PROCESSES + s) % MAX_PROCESSES := by
      simp only [MAX_PROCESSES] at *; omega
    rw [hrear]
    have hnc : (cur + 1) % MAX_PROCESSES < MAX_PROCESSES := by
      simp only [MAX_PROCESSES] at *; omega
    by_cases hm : m = 1
    · subst hm
      have hx : (cur + 1) % MAX_PROCESSES =
          ((cur + 1) % MAX_PROCESSES + 0) % MAX_PROCESSES := by
        simp only [MAX_PROCESSES] at *; omega
      rw [shiftLoop_out s f ((cur+1) % MAX_PROCESSES) _ _ ((cur+1) % MAX_PROCESSES)
        hnc (by omega) (by omega) ?_]
      · simp
      · intro m' hm1' hm2'
        simp only [MAX_PROCESSES] at *; omega
    · have hm2' : 2 ≤ m := by omega
      have hxeq : (cur + m) % MAX_PROCESSES =
          ((cur + 1) % MAX_PROCESSES + (m - 1)) % MAX_PROCESSES := by
        simp only [MAX_PROCESSES] at *; omega
      rw [hxeq, ih f ((cur+1) % MAX_PROCESSES) _ _ (m-1) hnc (by omega) (by omega)
        (by omega) (by omega)]
      by_cases hm3 : m = 2
    -- m = 2: inner temp is data nextcur
      · subst hm3
        simp only [if_pos (by omega : (2:Nat) - 1 = 1), if_neg (by omega : ¬ (2:Nat) = 1)]
        have : (cur + (2 - 1)) % MAX_PROCESSES = (cur + 1) % MAX_PROCESSES := by norm_num
        rw [this]
        simp
      · have hne1 : ¬ (m - 1 = 1) := by omega
        rw [if_neg hne1, if_neg hm]
        have heq2 : ((cur + 1) % MAX_PROCESSES + (m - 1 - 1)) % MAX_PROCESSES =
            (cur + (m - 1)) % MAX_PROCESSES := by
          simp only [MAX_PROCESSES] at *; omega
        rw [heq2]
        have hnex : (cur + (m - 1)) % MAX_PROCESSES ≠ (cur + 1) % MAX_PROCESSES := by
          simp only [MAX_PROCESSES] at *; omega
        simp [hnex]

/-! ### Characterization of `enqueue_priority` -/

theorem QInv_enqueue_priority (q : ReadyQueue) (n : Int) (procs : Nat → Process)
    (hq : QInv q) : QInv (enqueue_priority q n procs) := by
  by_cases h : MAX_PROCESSES ≤ q.size
  · simpa [enqueue_priority, h] using hq
  · simp only [enqueue_priority, if_neg h]
    by_cases hr : q.rear = -1
    · simp only [if_pos hr]
      exact QInv_enqueue q n hq
    · simp only [if_neg hr]
      by_cases hc : scanLoop procs ((q.rear + 1) % (MAX_PROCESSES : Int)).toNat
          (procs n.toNat).remaining_time (procs n.toNat).priority q.process_indices
          q.front MAX_PROCESSES = ((q.rear + 1) % (MAX_PROCESSES : Int)).toNat
      · simp only [if_pos hc]
        exact QInv_enqueue q n hq
      · simp only [if_neg hc]
        exact QInv_push q _ hq (by omega)

theorem shift_insert_toList (q : ReadyQueue) (n : Int) (k0 : Nat) (l : List Int)
    (hgl : q.toList = l) (hfl : q.front < MAX_PROCESSES) (hsz : q.size < MAX_PROCESSES)
    (hklt : k0 < q.size) :
    ({ q with
        rear := (q.rear + 1) % (MAX_PROCESSES : Int)
        process_indices := shiftLoop ((q.front + q.size) % MAX_PROCESSES)
          (fun j => if j = (q.front + k0) % MAX_PROCESSES then n else q.process_indices j)
          (q.process_indices ((q.front + k0) % MAX_PROCESSES))
          ((q.front + k0) % MAX_PROCESSES) MAX_PROCESSES
        size := q.size + 1 } : ReadyQueue).toList
      = l.take k0 ++ n :: l.drop k0 := by
  subst hgl
  have hllen : q.toList.length = q.size := toList_length q
  have htklen : (q.toList.take k0).length = k0 := by
    rw [List.length_take]; omega
  apply List.ext_getElem
  · simp only [ReadyQueue.toList, List.length_map, List.length_range,
      List.length_append, List.length_cons, List.length_take, List.length_drop]
    omega
  · intro g h1 h2
    have hg : g < q.size + 1 := by
      simpa [ReadyQueue.toList] using h1
    conv_lhs => simp only [ReadyQueue.toList, List.getElem_map, List.getElem_range]
    have hstop : (q.front + q.size) % MAX_PROCESSES =
        ((q.front + k0) % MAX_PROCESSES + (q.size - k0)) % MAX_PROCESSES := by
      simp only [MAX_PROCESSES] at *; omega
    rw [hstop]
    have hcurlt : (q.front + k0) % MAX_PROCESSES < MAX_PROCESSES := by
      simp only [MAX_PROCESSES]; omega
    rcases lt_trichotomy g k0 with hgk | hgk | hgk
    · rw [shiftLoop_out (q.size - k0) MAX_PROCESSES _ _ _ _ hcurlt
        (by omega) (by omega) ?_]
      · have hne2 : (q.front + g) % MAX_PROCESSES ≠ (q.front + k0) % MAX_PROCESSES := by
          simp only [MAX_PROCESSES] at *; omega
        simp only [if_neg hne2]
        rw [List.getElem_append_left (by omega : g < (q.toList.take k0).length),
          List.getElem_take, toList_getElem]
      · intro m hm1 hm2
        have hmm : ((q.front + k0) % MAX_PROCESSES + m) % MAX_PROCESSES =
            (q.front + (k0 + m)) % MAX_PROCESSES := by
          simp only [MAX_PROCESSES] at *; omega
        rw [hmm]
        simp only [MAX_PROCESSES] at *; omega
    · subst hgk
      rw [shiftLoop_out (q.size - g) MAX_PROCESSES _ _ _ _ hcurlt
        (by omega) (by omega) ?_]
      · simp only [if_pos rfl]
        rw [List.getElem_append_right (by omega : (q.toList.take g).length ≤ g)]
        simp [htklen]
      · intro m hm1 hm2
        simp only [MAX_PROCESSES] at *; omega
    · have hm1 : 1 ≤ g - k0 := by omega
      have hm2 : g - k0 ≤ q.size - k0 := by omega
      have hxeq : (q.front + g) % MAX_PROCESSES =
          ((q.front + k0) % MAX_PROCESSES + (g - k0)) % MAX_PROCESSES := by
        simp only [MAX_PROCESSES] at *; omega
      rw [hxeq, shiftLoop_in (q.size - k0) MAX_PROCESSES _ _ _ (g - k0) hcurlt
        (by omega) (by omega) hm1 hm2]
      rw [List.getElem_append_right (by omega : (q.toList.take k0).length ≤ g),
        List.getElem_cons]
      rw [dif_neg (by omega : ¬ (g - (q.toList.take k0).length = 0))]
      rw [List.getElem_drop, toList_getElem]
      by_cases hg1 : g - k0 = 1
      · rw [if_pos hg1]
        congr 1
        simp only [MAX_PROCESSES] at *; omega
      · rw [if_neg hg1]
        have heq3 : ((q.front + k0) % MAX_PROCESSES + (g - k0 - 1)) % MAX_PROCESSES =
            (q.front + (g - 1)) % MAX_PROCESSES := by
          simp only [MAX_PROCESSES] at *; omega
        rw [heq3]
        have hne3 : (q.front + (g - 1)) % MAX_PROCESSES ≠
            (q.front + k0) % MAX_PROCESSES := by
          simp only [MAX_PROCESSES] at *; omega
        simp only [if_neg hne3]
        congr 1
        simp only [MAX_PROCESSES] at *; omega

theorem toList_enqueue_priority (q : ReadyQueue) (n : Int) (procs : Nat → Process)
    (hq : QInv q) (hsz : q.size < MAX_PROCESSES) :
    (enqueue_priority q n procs).toList =
      q.toList.takeWhile (fun e => !beatsB procs n e) ++
      n :: q.toList.dropWhile (fun e => !beatsB procs n e) := by
  have hno : ¬ MAX_PROCESSES ≤ q.size := by omega
  have hfl := hq.front_lt
  by_cases hr : q.rear = -1
  · obtain ⟨hs0, hf0⟩ := hq.rear_neg hr
    rw [enqueue_priority, if_neg hno, if_pos hr, toList_enqueue q n hq hsz,
      toList_of_empty q hs0]
    simp
  · have hrn := rear_succ_toNat q hq
    simp only [enqueue_priority, if_neg hno, if_neg hr]
    rw [hrn, scanLoop_spec0 procs (procs n.toNat).remaining_time (procs n.toNat).priority
      q hfl hsz MAX_PROCESSES (by omega)]
    simp only [← beatsB_eq_vals]
    generalize hgl : q.toList = l
    have hllen : l.length = q.size := by rw [← hgl]; exact toList_length q
    have hk0le : (l.takeWhile fun e => !beatsB procs n e).length ≤ q.size := by
      calc (l.takeWhile fun e => !beatsB procs n e).length
          ≤ l.length := (List.takeWhile_prefix _).sublist.length_le
        _ = q.size := hllen
    have htw : l.takeWhile (fun e => !beatsB procs n e) =
        l.take (l.takeWhile fun e => !beatsB procs n e).length :=
      List.prefix_iff_eq_take.mp (List.takeWhile_prefix _)
    have hdw : l.dropWhile (fun e => !beatsB procs n e) =
        l.drop (l.takeWhile fun e => !beatsB procs n e).length := by
      have happ := List.takeWhile_append_dropWhile (fun e => !beatsB procs n e) l
      have hdl := @List.drop_left' _ (l.takeWhile fun e => !beatsB procs n e)
        (l.dropWhile fun e => !beatsB procs n e)
        (l.takeWhile fun e => !beatsB procs n e).length rfl
      rw [happ] at hdl
      exact hdl.symm
    by_cases hk : (l.takeWhile fun e => !beatsB procs n e).length = q.size
    · have hcond : (q.front + (l.takeWhile fun e => !beatsB procs n e).length)
          % MAX_PROCESSES = (q.front + q.size) % MAX_PROCESSES := by
        rw [hk]
      rw [if_pos hcond, toList_enqueue q n hq hsz, hgl]
      have htwl : l.takeWhile (fun e => !beatsB procs n e) = l := by
        refine (List.takeWhile_prefix _).eq_of_length ?_
        rw [hllen]; exact hk
      have hdwl : l.dropWhile (fun e => !beatsB procs n e) = [] := by
        rw [hdw]
        exact List.drop_of_length_le (by omega)
      rw [htwl, hdwl]
    · have hcond : (q.front + (l.takeWhile fun e => !beatsB procs n e).length)
          % MAX_PROCESSES ≠ (q.front + q.size) % MAX_PROCESSES := by
        simp only [MAX_PROCESSES] at *; omega
      rw [if_neg hcond,
        shift_insert_toList q n (l.takeWhile fun e => !beatsB procs n e).length l hgl
          hfl hsz (by omega), ← htw, ← hdw]

theorem pairwise_insert_aux (procs : Nat → Process) (n : Int) (l : List Int)
    (hp : l.Pairwise (remLE procs)) :
    (l.takeWhile (fun e => !beatsB procs n e) ++
      n :: l.dropWhile (fun e => !beatsB procs n e)).Pairwise (remLE procs) := by
  have happ := List.takeWhile_append_dropWhile (fun e => !beatsB procs n e) l
  have hp2 : (l.takeWhile (fun e => !beatsB procs n e) ++
      l.dropWhile (fun e => !beatsB procs n e)).Pairwise (remLE procs) := by
    rw [happ]; exact hp
  rw [List.pairwise_append] at hp2
  obtain ⟨ptw, pdw, cross⟩ := hp2
  rw [List.pairwise_append]
  have hdwle : ∀ e ∈ l.dropWhile (fun e => !beatsB procs n e), remLE procs n e := by
    intro e he
    cases hdw : l.dropWhile (fun e => !beatsB procs n e) with
    | nil => rw [hdw] at he; simp at he
    | cons b0 rest =>
      have hb0 : (fun e => !beatsB procs n e) b0 = false := by
        have hh := List.head?_dropWhile_not (fun e => !beatsB procs n e) l
        rw [hdw] at hh
        simpa using hh
      have hb0' : beatsB procs n b0 = true := by simpa using hb0
      have hnb0 : remLE procs n b0 := by
        simp only [beatsB, decide_eq_true_eq] at hb0'
        simp only [remLE]
        rcases hb0' with h | h
        · exact le_of_lt h
        · exact le_of_eq h.1
      rw [hdw] at he pdw
      rcases List.mem_cons.mp he with rfl | he'
      · exact hnb0
      · have hb0e := (List.pairwise_cons.mp pdw).1 e he'
        simp only [remLE] at hnb0 hb0e ⊢
        omega
  refine ⟨ptw, ?_, ?_⟩
  · rw [List.pairwise_cons]
    exact ⟨hdwle, pdw⟩
  · intro a ha b hb
    have hpa := @List.mem_takeWhile_imp _ (fun e => !beatsB procs n e) l a ha
    have han : remLE procs a n := by
      simp only [beatsB, Bool.not_eq_true', decide_eq_false_iff_not] at hpa
      simp only [remLE]
      omega
    rcases List.mem_cons.mp hb with rfl | hb'
    · exact han
    · have := hdwle b hb'
      simp only [remLE] at han this ⊢
      omega

/-- Claim C8 (amended): `enqueue_priority` scans from the front and inserts
the new entry immediately before the first existing entry that the new one
ranks strictly better than; insertion is stable (every entry the new one
does not beat — in particular every equal-`remaining_time`,
equal-`priority` entry — stays in front of it); the queue stays sorted by
`remaining_time`; and on a `remaining_time` tie the comparator ranks the
new entry first exactly when its priority value is *larger* (the code's
"higher value = higher priority" convention), not lower as the original
claim says. -/
theorem C8_amended_sorted_stable_insert (q : ReadyQueue) (n : Int)
    (procs : Nat → Process) (hq : QInv q) (hsz : q.size < MAX_PROCESSES) :
    (enqueue_priority q n procs).toList =
      q.toList.takeWhile (fun e => !beatsB procs n e) ++
      n :: q.toList.dropWhile (fun e => !beatsB procs n e) ∧
    (∀ e : Int, (procs e.toNat).remaining_time = (procs n.toNat).remaining_time →
      (beatsB procs n e = true ↔
        (procs e.toNat).priority < (procs n.toNat).priority)) ∧
    (q.toList.Pairwise (remLE procs) →
      (enqueue_priority q n procs).toList.Pairwise (remLE procs)) := by
  refine ⟨toList_enqueue_priority q n procs hq hsz, ?_, ?_⟩
  · intro e he
    simp [beatsB, he]
  · intro hp
    rw [toList_enqueue_priority q n procs hq hsz]
    exact pairwise_insert_aux procs n q.toList hp

/-- Witness for the amended C8 at the concrete tie-break input
(`qTie` holding process 0, inserting process 1). -/
theorem C8_amended_witness :
    (QInv qTie ∧ qTie.size < MAX_PROCESSES) ∧
    ((enqueue_priority qTie 1 procsTie).toList =
      qTie.toList.takeWhile (fun e => !beatsB procsTie 1 e) ++
      1 :: qTie.toList.dropWhile (fun e => !beatsB procsTie 1 e) ∧
    (∀ e : Int, (procsTie e.toNat).remaining_time =
        (procsTie (1 : Int).toNat).remaining_time →
      (beatsB procsTie 1 e = true ↔
        (procsTie e.toNat).priority < (procsTie (1 : Int).toNat).priority)) ∧
    (qTie.toList.Pairwise (remLE procsTie) →
      (enqueue_priority qTie 1 procsTie).toList.Pairwise (remLE procsTie))) :=
  ⟨⟨⟨by decide, by decide, by decide, by decide⟩, by decide⟩,
   C8_amended_sorted_stable_insert qTie 1 procsTie
     ⟨by decide, by decide, by decide, by decide⟩ (by decide)⟩

/-! ### Dispatch loop specification -/

theorem dispatchUpd_idem (t : Int) (p : Process) :
    dispatchUpd t (dispatchUpd t p) = dispatchUpd t p := by
  by_cases h : p.start_time = -1
  · by_cases h2 : t = -1 <;> simp [dispatchUpd, h, h2]
  · simp [dispatchUpd, h]

theorem dispatchUpd_fields (t : Int) (p : Process) :
    (dispatchUpd t p).state = .RUNNING ∧ (dispatchUpd t p).quantum_used = 0 ∧
    (dispatchUpd t p).arrival_time = p.arrival_time ∧
    (dispatchUpd t p).remaining_time = p.remaining_time ∧
    (dispatchUpd t p).priority = p.priority ∧
    (p.start_time = -1 → (dispatchUpd t p).start_time = t ∧
      (dispatchUpd t p).response_time = t - p.arrival_time) ∧
    (p.start_time ≠ -1 → (dispatchUpd t p).start_time = p.start_time) := by
  by_cases h : p.start_time = -1 <;> simp [dispatchUpd, h]

theorem dispatchUpd_eq_mark (t : Int) (p : Process) :
    dispatchUpd t p = dispatchMark t p := by
  by_cases h : p.start_time = -1 <;> simp [dispatchUpd, dispatchMark, h]

theorem assignLoop_ref (t : Int) (cpu_count : Nat) :
    ∀ (fuel c : Nat) (procs : Nat → Process) (cpus : Nat → CPU) (q : ReadyQueue)
      (dis : Bool),
      QInv q → (∀ e ∈ q.toList, 0 ≤ e) →
      cpu_count - c + q.size < fuel →
      (assignLoop t cpu_count c fuel procs cpus q dis).procs =
        (dispatchRef t c (cpu_count - c) procs cpus q.toList).1 ∧
      (assignLoop t cpu_count c fuel procs cpus q dis).cpus =
        (dispatchRef t c (cpu_count - c) procs cpus q.toList).2.1 ∧
      (assignLoop t cpu_count c fuel procs cpus q dis).queue.toList =
        (dispatchRef t c (cpu_count - c) procs cpus q.toList).2.2 := by
  intro fuel
  induction fuel with
  | zero =>
    intro c procs cpus q dis hq hq0 hfuel
    exact absurd hfuel (by omega)
  | succ fuel ih =>
    intro c procs cpus q dis hq hq0 hfuel
    by_cases hclt : c < cpu_count
    · obtain ⟨rem, hrem⟩ : ∃ rem, cpu_count - c = rem + 1 :=
        ⟨cpu_count - (c+1), by omega⟩
      have hrem2 : cpu_count - (c+1) = rem := by omega
      rw [hrem]
      cases hcp : (cpus c).current_process with
      | some p0 =>
        simp only [assignLoop, if_pos hclt, hcp, dispatchRef]
        have hIH := ih (c+1) procs cpus q dis hq hq0 (by omega)
        rw [hrem2] at hIH
        exact hIH
      | none =>
        simp only [assignLoop, if_pos hclt, hcp, dispatchRef]
        by_cases hqs : q.size = 0
        · rw [dequeue_of_empty q hqs, if_pos rfl, toList_of_empty q hqs]
          simp only [popEligible]
          exact ⟨trivial, trivial, trivial⟩
        · have hcons := toList_dequeue q hq hqs
          have hmem : (dequeue q).1 ∈ q.toList := by
            rw [hcons]; exact List.mem_cons_self _ _
          have he0 : 0 ≤ (dequeue q).1 := hq0 _ hmem
          have hene : ¬ ((dequeue q).1 = -1) := by omega
          rw [if_neg hene, hcons]
          simp only [popEligible]
          have hq2 : QInv (dequeue q).2 := QInv_dequeue q hq
          have hq20 : ∀ e ∈ (dequeue q).2.toList, 0 ≤ e := by
            intro e he
            apply hq0
            rw [hcons]
            exact List.mem_cons_of_mem _ he
          have hsz2 : (dequeue q).2.size = q.size - 1 := by
            simp [dequeue, hqs]
          by_cases hguard : (procs (dequeue q).1.toNat).state = .COMPLETED ∨
              t < (procs (dequeue q).1.toNat).arrival_time
          · simp only [if_pos hguard]
            have hIH := ih c procs cpus (dequeue q).2 true hq2 hq20
              (by rw [hsz2]; omega)
            rw [hrem] at hIH
            simp only [dispatchRef, hcp] at hIH
            exact hIH
          · simp only [if_neg hguard]
            have hfun : (fun j => if j = (dequeue q).1.toNat
                then dispatchUpd t (procs j) else procs j) =
                (fun j => if j = (dequeue q).1.toNat
                then dispatchMark t (procs j) else procs j) := by
              funext j
              by_cases hj : j = (dequeue q).1.toNat
              · simp [hj, dispatchUpd_eq_mark]
              · simp [hj]
            rw [hfun]
            have hIH := ih (c+1)
              (fun j => if j = (dequeue q).1.toNat
                then dispatchMark t (procs j) else procs j)
              (fun d => if d = c then
                { cpus c with current_process := some (dequeue q).1.toNat }
                else cpus d)
              (dequeue q).2 dis hq2 hq20 (by rw [hsz2]; omega)
            rw [hrem2] at hIH
            exact hIH
    · simp only [assignLoop, if_neg hclt]
      have hc0 : cpu_count - c = 0 := by omega
      rw [hc0]
      simp only [dispatchRef]
      exact ⟨trivial, trivial, trivial⟩

/-- C6: dispatch fills idle CPUs in increasing CPU-id order by popping the
front of the ready queue; a popped process that has not yet arrived or is
already completed is discarded and the same CPU slot is retried rather
than advancing; on a process's first dispatch `start_time` is recorded
and `response_time = start_time - arrival_time` is derived; `quantum_used`
is reset on every dispatch: `assign_processes_to_idle_cpus` from the
source computes exactly the reference dispatcher `dispatchRef` written
from these words (process array, CPU array and remaining queue contents
all agree). -/
theorem C6_dispatch_idle_fill (procs : Nat → Process) (cpus : Nat → CPU)
    (cpu_count : Nat) (q : ReadyQueue) (t : Int)
    (hq0 : ∀ e ∈ q.toList, 0 ≤ e) (hq : QInv q) :
    (assign_processes_to_idle_cpus procs cpus cpu_count q t).procs =
      (dispatchRef t 0 cpu_count procs cpus q.toList).1 ∧
    (assign_processes_to_idle_cpus procs cpus cpu_count q t).cpus =
      (dispatchRef t 0 cpu_count procs cpus q.toList).2.1 ∧
    (assign_processes_to_idle_cpus procs cpus cpu_count q t).queue.toList =
      (dispatchRef t 0 cpu_count procs cpus q.toList).2.2 := by
  have h := assignLoop_ref t cpu_count (cpu_count + q.size + 1) 0 procs cpus q false
    hq hq0 (by omega)
  rw [Nat.sub_zero] at h
  simpa only [assign_processes_to_idle_cpus] using h

/-- Witness for C6 at a concrete input: one ready process in the queue, one
idle CPU, tick 0; the reference dispatcher genuinely fills CPU 0 with
process 0 there, so the agreement is not vacuous. -/
theorem C6_dispatch_witness :
    ((∀ e ∈ wQueueA.toList, (0:Int) ≤ e) ∧ QInv wQueueA) ∧
    ((assign_processes_to_idle_cpus wProcsA wCpusIdle 1 wQueueA 0).procs =
        (dispatchRef 0 0 1 wProcsA wCpusIdle wQueueA.toList).1 ∧
      (assign_processes_to_idle_cpus wProcsA wCpusIdle 1 wQueueA 0).cpus =
        (dispatchRef 0 0 1 wProcsA wCpusIdle wQueueA.toList).2.1 ∧
      (assign_processes_to_idle_cpus wProcsA wCpusIdle 1 wQueueA 0).queue.toList =
        (dispatchRef 0 0 1 wProcsA wCpusIdle wQueueA.toList).2.2) ∧
    ((dispatchRef 0 0 1 wProcsA wCpusIdle wQueueA.toList).2.1 0).current_process =
      some 0 ∧
    (dispatchRef 0 0 1 wProcsA wCpusIdle wQueueA.toList).2.2 = [] :=
  ⟨⟨by decide, ⟨by decide, by decide, by decide, by decide⟩⟩,
   C6_dispatch_idle_fill wProcsA wCpusIdle 1 wQueueA 0 (by decide)
     ⟨by decide, by decide, by decide, by decide⟩,
   by decide, by decide⟩

/-! ### Quantum-expiry loop specification -/

theorem enqueue_size (q : ReadyQueue) (x : Int) (h : q.size < MAX_PROCESSES) :
    (enqueue q x).size = q.size + 1 := by
  simp [enqueue, if_neg (by omega : ¬ MAX_PROCESSES ≤ q.size)]

theorem rrExpiryLoop_spec (time_quantum : Int) :
    ∀ (rem c : Nat) (procs : Nat → Process) (cpus : Nat → CPU) (q : ReadyQueue),
      QInv q → q.size + rem ≤ MAX_PROCESSES →
      (∀ d1 d2 i, c ≤ d1 → d1 < c + rem → c ≤ d2 → d2 < c + rem →
        (cpus d1).current_process = some i → (cpus d2).current_process = some i →
        d1 = d2) →
      RRAux time_quantum c rem procs cpus q
        (rrExpiryLoop time_quantum c rem (procs, cpus, q)) := by
  intro rem
  induction rem with
  | zero =>
    intro c procs cpus q hq hsz huniq
    simp only [rrExpiryLoop]
    refine ⟨by simp, ?_, fun d _ => rfl, fun j _ => rfl, fun j => Or.inl rfl, hq⟩
    intro d hd1 hd2 i
    omega
  | succ rem ih =>
    intro c procs cpus q hq hsz huniq
    have hrange : List.range' c (rem + 1) = c :: List.range' (c+1) rem :=
      List.range'_succ c rem 1
    cases hc : (cpus c).current_process with
    | none =>
      simp only [rrExpiryLoop, hc]
      obtain ⟨ih1, ih2, ih3, ih4, ih5, ihQ⟩ := ih (c+1) procs cpus q hq (by omega)
        (fun d1 d2 i h1 h2 h3 h4 h5 h6 => huniq d1 d2 i (by omega) (by omega)
          (by omega) (by omega) h5 h6)
      refine ⟨?_, ?_, ?_, ?_, ih5, ihQ⟩
      · rw [hrange, List.filterMap_cons_none (by simp [hc])]
        exact ih1
      · intro d hd1 hd2 i hdi
        by_cases hdc : d = c
        · rw [hdc, hc] at hdi
          exact absurd hdi (by simp)
        · exact ih2 d (by omega) (by omega) i hdi
      · intro d hd
        apply ih3
        rcases hd with h | h | h
        · exact Or.inl (by omega)
        · exact Or.inr (Or.inl (by omega))
        · by_cases hdc : d = c
          · exact Or.inl (by omega)
          · exact Or.inr (Or.inr h)
      · intro j hj
        exact ih4 j (fun d h1 h2 => hj d (by omega) (by omega))
    | some i =>
      by_cases hg1 : 0 < (procs i).remaining_time ∧ (procs i).state = .RUNNING
      · by_cases hg2 : time_quantum ≤ (procs i).quantum_used
        · -- quantum expired: requeue
          have hrx : rrExpires time_quantum (procs i) := ⟨hg1.1, hg1.2, hg2⟩
          simp only [rrExpiryLoop, hc, if_pos hg1, if_pos hg2]
          have hszlt : q.size < MAX_PROCESSES := by omega
          have htl2 := toList_enqueue q (i : Int) hq hszlt
          have hsz2 := enqueue_size q (i : Int) hszlt
          obtain ⟨ih1, ih2, ih3, ih4, ih5, ihQ⟩ := ih (c+1)
            (fun j => if j = i then { procs i with quantum_used := 0, state := .READY }
                      else procs j)
            (fun d => if d = c then { cpus c with current_process := none } else cpus d)
            (enqueue q (i : Int)) (QInv_enqueue q (i : Int) hq) (by omega)
            (fun d1 d2 i' h1 h2 h3 h4 h5 h6 => by
              simp only [if_neg (by omega : ¬ (d1 = c)),
                if_neg (by omega : ¬ (d2 = c))] at h5 h6
              exact huniq d1 d2 i' (by omega) (by omega) (by omega) (by omega) h5 h6)
          have hfm : (List.range' (c+1) rem).filterMap (fun d =>
              match ((fun d => if d = c then { cpus c with current_process := none }
                else cpus d) d).current_process with
              | some i' => if rrExpires time_quantum
                  ((fun j => if j = i then
                      { procs i with quantum_used := 0, state := .READY }
                    else procs j) i') then some (i' : Int) else none
              | none => none) =
              (List.range' (c+1) rem).filterMap (fun d =>
              match (cpus d).current_process with
              | some i' => if rrExpires time_quantum (procs i') then some (i' : Int)
                           else none
              | none => none) := by
            apply List.filterMap_congr
            intro d hd
            rw [List.mem_range'] at hd
            obtain ⟨k, hk, rfl⟩ := hd
            have hdc : ¬ (c + 1 + 1 * k = c) := by omega
            simp only [if_neg hdc]
            cases hd2 : (cpus (c + 1 + 1 * k)).current_process with
            | none => rfl
            | some i' =>
              have hii : ¬ (i' = i) := by
                intro hcontra
                subst hcontra
                have := huniq (c + 1 + 1 * k) c i' (by omega) (by omega) (by omega)
                  (by omega) hd2 hc
                omega
              simp only [if_neg hii]
          have hpi : (rrExpiryLoop time_quantum (c+1) rem
              ((fun j => if j = i then { procs i with quantum_used := 0, state := .READY }
                         else procs j),
               (fun d => if d = c then { cpus c with current_process := none } else cpus d),
               enqueue q (i : Int))).1 i =
              { procs i with quantum_used := 0, state := .READY } := by
            have := ih4 i (fun d h1 h2 => by
              simp only [if_neg (by omega : ¬ (d = c))]
              intro hcontra
              have := huniq d c i (by omega) (by omega) (by omega) (by omega) hcontra hc
              omega)
            rw [this]
            simp
          have hcons2 : (List.range' c (rem+1)).filterMap (fun d =>
              match (cpus d).current_process with
              | some i' => if rrExpires time_quantum (procs i') then some (i' : Int)
                           else none
              | none => none) = (i : Int) :: (List.range' (c+1) rem).filterMap (fun d =>
              match (cpus d).current_process with
              | some i' => if rrExpires time_quantum (procs i') then some (i' : Int)
                           else none
              | none => none) := by
            rw [hrange]
            apply List.filterMap_cons_some
            simp [hc, hrx]
          refine ⟨?_, ?_, ?_, ?_, ?_, ihQ⟩
          · rw [ih1, hfm, htl2, hcons2]
            simp
          · intro d hd1 hd2 i' hdi
            by_cases hdc : d = c
            · have hdi' : (cpus c).current_process = some i' := by
                rw [← hdc]; exact hdi
              rw [hc] at hdi'
              have hii : i = i' := Option.some.inj hdi'
              refine ⟨fun _ => ⟨?_, ?_⟩, fun hn => absurd (hii ▸ hrx) hn⟩
              · have h3 := ih3 d (Or.inl (by omega))
                rw [h3]
                simp [hdc]
              · rw [← hii]
                exact hpi
            · have hii : ¬ (i' = i) := by
                intro hcontra
                subst hcontra
                exact hdc (huniq d c i' (by omega) (by omega) (by omega) (by omega) hdi hc)
              have h2 := ih2 d (by omega) (by omega) i'
                (by simp only [if_neg hdc]; exact hdi)
              simp only [if_neg hii] at h2
              obtain ⟨h2a, h2b⟩ := h2
              refine ⟨fun hx => h2a hx, fun hx => ?_⟩
              obtain ⟨g1, g2⟩ := h2b hx
              simp only [if_neg hdc] at g1
              exact ⟨g1, g2⟩
          · intro d hd
            have hdc : ¬ (d = c) := by
              rcases hd with h | h | h
              · omega
              · omega
              · intro he; rw [he, hc] at h; exact absurd h (by simp)
            have h3 := ih3 d (by
              rcases hd with h | h | h
              · exact Or.inl (by omega)
              · exact Or.inr (Or.inl (by omega))
              · exact Or.inr (Or.inr (by simp only [if_neg hdc]; exact h)))
            rw [h3]
            simp [hdc]
          · intro j hj
            have hji : ¬ (j = i) := by
              intro he
              exact hj c (by omega) (by omega) (by rw [hc, he])
            have h4 := ih4 j (fun d h1 h2 => by
              simp only [if_neg (by omega : ¬ (d = c))]
              exact hj d (by omega) (by omega))
            rw [h4]
            simp [hji]
          · intro j
            rcases ih5 j with h | h
            · by_cases hji : j = i
              · subst hji
                rw [h]
                exact Or.inr (by simp)
              · rw [h]
                simp [hji]
            · by_cases hji : j = i
              · subst hji
                rw [h]
                simp
              · rw [h]
                simp [hji]
        · -- running but quantum not yet expired
          have hnrx : ¬ rrExpires time_quantum (procs i) := by
            intro hx; exact hg2 hx.2.2
          simp only [rrExpiryLoop, hc, if_pos hg1, if_neg hg2]
          obtain ⟨ih1, ih2, ih3, ih4, ih5, ihQ⟩ := ih (c+1) procs cpus q hq (by omega)
            (fun d1 d2 i' h1 h2 h3 h4 h5 h6 => huniq d1 d2 i' (by omega) (by omega)
              (by omega) (by omega) h5 h6)
          refine ⟨?_, ?_, ?_, ?_, ih5, ihQ⟩
          · rw [hrange, List.filterMap_cons_none (by simp [hc, hnrx])]
            exact ih1
          · intro d hd1 hd2 i' hdi
            by_cases hdc : d = c
            · have hdi' : (cpus c).current_process = some i' := by
                rw [← hdc]; exact hdi
              rw [hc] at hdi'
              have hii : i = i' := Option.some.inj hdi'
              refine ⟨fun hx => absurd hx (by rw [← hii]; exact hnrx), fun _ => ⟨?_, ?_⟩⟩
              · exact ih3 d (Or.inl (by omega))
              · refine ih4 i' (fun d2 h1 h2 hcontra => ?_)
                have := huniq d2 c i' (by omega) (by omega) (by omega) (by omega) hcontra
                  (by rw [hc, hii])
                omega
            · exact ih2 d (by omega) (by omega) i' hdi
          · intro d hd
            apply ih3
            rcases hd with h | h | h
            · exact Or.inl (by omega)
            · exact Or.inr (Or.inl (by omega))
            · by_cases hdc : d = c
              · exact Or.inl (by omega)
              · exact Or.inr (Or.inr h)
          · intro j hj
            exact ih4 j (fun d h1 h2 => hj d (by omega) (by omega))
      · -- not both remaining > 0 and RUNNING
        have hnrx : ¬ rrExpires time_quantum (procs i) := by
          intro hx; exact hg1 ⟨hx.1, hx.2.1⟩
        simp only [rrExpiryLoop, hc, if_neg hg1]
        obtain ⟨ih1, ih2, ih3, ih4, ih5, ihQ⟩ := ih (c+1) procs cpus q hq (by omega)
          (fun d1 d2 i' h1 h2 h3 h4 h5 h6 => huniq d1 d2 i' (by omega) (by omega)
            (by omega) (by omega) h5 h6)
        refine ⟨?_, ?_, ?_, ?_, ih5, ihQ⟩
        · rw [hrange, List.filterMap_cons_none (by simp [hc, hnrx])]
          exact ih1
        · intro d hd1 hd2 i' hdi
          by_cases hdc : d = c
          · have hdi' : (cpus c).current_process = some i' := by
              rw [← hdc]; exact hdi
            rw [hc] at hdi'
            have hii : i = i' := Option.some.inj hdi'
            refine ⟨fun hx => absurd hx (by rw [← hii]; exact hnrx), fun _ => ⟨?_, ?_⟩⟩
            · exact ih3 d (Or.inl (by omega))
            · refine ih4 i' (fun d2 h1 h2 hcontra => ?_)
              have := huniq d2 c i' (by omega) (by omega) (by omega) (by omega) hcontra
                (by rw [hc, hii])
              omega
          · exact ih2 d (by omega) (by omega) i' hdi
        · intro d hd
          apply ih3
          rcases hd with h | h | h
          · exact Or.inl (by omega)
          · exact Or.inr (Or.inl (by omega))
          · by_cases hdc : d = c
            · exact Or.inl (by omega)
            · exact Or.inr (Or.inr h)
        · intro j hj
          exact ih4 j (fun d h1 h2 => hj d (by omega) (by omega))

/-- Claim C7: once per tick before dispatch (the RR branch of the simulate
loop calls handle_rr_quantum_expiry before assign_processes_to_idle_cpus),
every CPU running a process with `quantum_used ≥ time_quantum` and
`remaining_time > 0` has that process moved to the back of the ready queue
(the expired processes are appended, in CPU order, behind the existing
contents) with state set back to `READY` and `quantum_used` reset to 0,
and the CPU freed; every other CPU and process — in particular a process
whose `remaining_time` is no longer positive, i.e. one that completed
exactly as its quantum expired and was retired by execute_processes — is
left untouched and not requeued. -/
theorem C7_rr_quantum_expiry (procs : Nat → Process) (cpus : Nat → CPU)
    (cpu_count : Nat) (time_quantum : Int) (q : ReadyQueue)
    (hq : QInv q) (hsz : q.size + cpu_count ≤ MAX_PROCESSES)
    (huniq : ∀ d1 d2 i, d1 < cpu_count → d2 < cpu_count →
      (cpus d1).current_process = some i → (cpus d2).current_process = some i →
      d1 = d2) :
    RRExpirySpec procs cpus cpu_count time_quantum q
      (handle_rr_quantum_expiry procs cpus cpu_count time_quantum q) := by
  simp only [handle_rr_quantum_expiry]
  obtain ⟨h1, h2, h3, h4, _, _⟩ := rrExpiryLoop_spec time_quantum cpu_count 0 procs cpus
    q hq (by omega)
    (fun d1 d2 i g1 g2 g3 g4 g5 g6 => huniq d1 d2 i (by omega) (by omega) g5 g6)
  refine ⟨?_, ?_, ?_, ?_, ?_⟩
  · rw [h1]
    congr 1
    simp only [expiredIdxList, List.range_eq_range']
  · intro c hc i hci
    exact h2 c (by omega) (by omega) i hci
  · intro c hc hnone
    exact h3 c (Or.inr (Or.inr hnone))
  · intro c hc
    exact h3 c (Or.inr (Or.inl (by omega)))
  · intro j hj
    exact h4 j (fun d g1 g2 => hj d (by omega))

/-- Witness for C7 at a concrete input: one CPU running a process that has
used a full quantum with work remaining, empty ready queue. -/
theorem C7_rr_expiry_witness :
    (QInv init_queue ∧ init_queue.size + 1 ≤ MAX_PROCESSES) ∧
    RRExpirySpec wProcsB wCpusB 1 2 init_queue
      (handle_rr_quantum_expiry wProcsB wCpusB 1 2 init_queue) :=
  ⟨⟨⟨by decide, by decide, by decide, by decide⟩, by decide⟩,
   C7_rr_quantum_expiry wProcsB wCpusB 1 2 init_queue
     ⟨by decide, by decide, by decide, by decide⟩ (by decide)
     (fun d1 d2 i h1 h2 _ _ => by omega)⟩

/-! ### Global invariant machinery for the dispatch discard branch -/

theorem nodup_int_length_le (n : Nat) (L : List Int) (hnd : L.Nodup)
    (hb : ∀ e ∈ L, 0 ≤ e ∧ e.toNat < n) : L.length ≤ n := by
  have hmap : (L.map Int.toNat).Nodup := by
    refine List.Nodup.map_on ?_ hnd
    intro x hx y hy hxy
    have h1 := hb x hx
    have h2 := hb y hy
    omega
  have hsub : (L.map Int.toNat).toFinset ⊆ Finset.range n := by
    intro x hx
    simp only [List.mem_toFinset, List.mem_map] at hx
    obtain ⟨e, he, rfl⟩ := hx
    simp only [Finset.mem_range]
    exact (hb e he).2
  have hcard := Finset.card_le_card hsub
  rw [List.toFinset_card_of_nodup hmap, Finset.card_range] at hcard
  simpa using hcard

theorem enqueueArrived_rr (procs : Nat → Process) :
    ∀ (A : List Nat) (q : ReadyQueue), enqueueArrived .RR procs A q = q := by
  intro A
  induction A with
  | nil => intro q; rfl
  | cons a A ih => intro q; exact ih q

theorem rrFold_eq (procs : Nat → Process) (A : List Nat) (q : ReadyQueue) :
    A.foldl (fun qq idx => enqueue qq (idx : Int)) q = enqueueArrived .FCFS procs A q := by
  induction A generalizing q with
  | nil => rfl
  | cons a A ih => exact ih (enqueue q (a : Int))

theorem waitingLoop_fields (t : Int) :
    ∀ (rem w : Nat) (procs : Nat → Process) (j : Nat),
      (waitingLoop t w rem procs j).arrival_time = (procs j).arrival_time ∧
      (waitingLoop t w rem procs j).state = (procs j).state := by
  intro rem
  induction rem with
  | zero => intro w procs j; exact ⟨rfl, rfl⟩
  | succ rem ih =>
    intro w procs j
    by_cases hc : (procs w).state = .WAITING ∧ (procs w).arrival_time ≤ t
    · simp only [waitingLoop, if_pos hc]
      obtain ⟨h1, h2⟩ := ih (w+1) (fun j2 => if j2 = w then
        { procs w with waiting_time := (procs w).waiting_time + 1 } else procs j2) j
      rw [h1, h2]
      by_cases hj : j = w
      · subst hj; simp
      · simp [hj]
    · simp only [waitingLoop, if_neg hc]
      exact ih (w+1) procs j

theorem arrivalsLoop_inv (t : Int) :
    ∀ (rem i0 : Nat) (procs : Nat → Process) (acc : List Nat),
      (∀ j, (arrivalsLoop t i0 rem procs acc).1 j = procs j ∨
        ((procs j).arrival_time = t ∧ i0 ≤ j ∧ j < i0 + rem ∧
          (arrivalsLoop t i0 rem procs acc).1 j =
            { procs j with state := .READY, quantum_used := 0 })) ∧
      ∃ A : List Nat, (arrivalsLoop t i0 rem procs acc).2 = acc ++ A ∧ A.Nodup ∧
        ∀ i ∈ A, i0 ≤ i ∧ i < i0 + rem ∧ (procs i).arrival_time = t ∧
          ((arrivalsLoop t i0 rem procs acc).1 i).state = .READY ∧
          ((arrivalsLoop t i0 rem procs acc).1 i).arrival_time = t := by
  intro rem
  induction rem with
  | zero =>
    intro i0 procs acc
    refine ⟨fun j => Or.inl rfl, [], by simp [arrivalsLoop], List.nodup_nil, by simp⟩
  | succ rem ih =>
    intro i0 procs acc
    by_cases harr : (procs i0).arrival_time = t
    · by_cases hlen : acc.length < MAX_PROCESSES
      · simp only [arrivalsLoop, if_pos harr, if_pos hlen]
        obtain ⟨iha, A, hA2, hAnd, hAmem⟩ := ih (i0+1)
          (fun j => if j = i0 then { procs i0 with state := .READY, quantum_used := 0 }
                    else procs j) (acc ++ [i0])
        have hfi0 : (arrivalsLoop t (i0+1) rem
            (fun j => if j = i0 then { procs i0 with state := .READY, quantum_used := 0 }
                      else procs j) (acc ++ [i0])).1 i0 =
            { procs i0 with state := .READY, quantum_used := 0 } := by
          rcases iha i0 with h | ⟨_, _, _, h⟩
          · rw [h]; simp
          · rw [h]; simp
        refine ⟨?_, i0 :: A, ?_, ?_, ?_⟩
        · intro j
          rcases iha j with h | ⟨ha2, hle, hlt, heq⟩
          · by_cases hj : j = i0
            · subst hj
              exact Or.inr ⟨harr, le_refl _, by omega, hfi0⟩
            · left
              rw [h]
              simp [hj]
          · by_cases hj : j = i0
            · subst hj
              exact Or.inr ⟨harr, le_refl _, by omega, hfi0⟩
            · right
              refine ⟨?_, by omega, by omega, ?_⟩
              · simpa [hj] using ha2
              · rw [heq]
                simp [hj]
        · rw [hA2]
          simp
        · refine List.nodup_cons.mpr ⟨?_, hAnd⟩
          intro hmem
          have := (hAmem i0 hmem).1
          omega
        · intro i hi
          rcases List.mem_cons.mp hi with hii | hii
          · subst hii
            refine ⟨le_refl _, by omega, harr, ?_, ?_⟩
            · rw [hfi0]
            · rw [hfi0]; exact harr
          · obtain ⟨h1, h2, h3, h4, h5⟩ := hAmem i hii
            have hne : ¬ (i = i0) := by omega
            refine ⟨by omega, by omega, ?_, h4, h5⟩
            simpa [hne] using h3
      · simp only [arrivalsLoop, if_pos harr, if_neg hlen]
        obtain ⟨iha, A, hA2, hAnd, hAmem⟩ := ih (i0+1) procs acc
        refine ⟨?_, A, hA2, hAnd, ?_⟩
        · intro j
          rcases iha j with h | ⟨h1, h2, h3, h4⟩
          · exact Or.inl h
          · exact Or.inr ⟨h1, by omega, by omega, h4⟩
        · intro i hi
          obtain ⟨h1, h2, h3, h4, h5⟩ := hAmem i hi
          exact ⟨by omega, by omega, h3, h4, h5⟩
    · simp only [arrivalsLoop, if_neg harr]
      obtain ⟨iha, A, hA2, hAnd, hAmem⟩ := ih (i0+1) procs acc
      refine ⟨?_, A, hA2, hAnd, ?_⟩
      · intro j
        rcases iha j with h | ⟨h1, h2, h3, h4⟩
        · exact Or.inl h
        · exact Or.inr ⟨h1, by omega, by omega, h4⟩
      · intro i hi
        obtain ⟨h1, h2, h3, h4, h5⟩ := hAmem i hi
        exact ⟨by omega, by omega, h3, h4, h5⟩

theorem midinv_cons_queue (n cpu_count : Nat) (t : Int) (procs : Nat → Process)
    (cpus : Nat → CPU) (q q' : ReadyQueue) (a : Nat)
    (hq' : QInv q') (hperm : q'.toList.Perm ((a : Int) :: q.toList))
    (hmid : MidInv n cpu_count t procs cpus q)
    (ha : a < n ∧ (procs a).arrival_time ≤ t ∧ (procs a).state = .READY ∧
      (a : Int) ∉ q.toList) :
    MidInv n cpu_count t procs cpus q' := by
  obtain ⟨hQ, hnd, helem, hheld⟩ := hmid
  obtain ⟨ha1, ha2, ha3, ha4⟩ := ha
  refine ⟨hq', ?_, ?_, ?_⟩
  · exact hperm.symm.nodup (List.nodup_cons.mpr ⟨ha4, hnd⟩)
  · intro e he
    have he2 : e ∈ (a : Int) :: q.toList := hperm.mem_iff.mp he
    rcases List.mem_cons.mp he2 with rfl | he3
    · refine ⟨by omega, by simpa using ha1, by simpa using ha2, by simpa using ha3⟩
    · exact helem e he3
  · intro d i hd hdi
    obtain ⟨g1, g2, g3, g4, g5⟩ := hheld d i hd hdi
    refine ⟨g1, g2, g3, ?_, g5⟩
    intro hmem
    have hm2 : (i : Int) ∈ (a : Int) :: q.toList := hperm.mem_iff.mp hmem
    rcases List.mem_cons.mp hm2 with heq | hm3
    · have hia : i = a := by exact_mod_cast heq
      rw [hia] at g3
      rw [ha3] at g3
      exact ProcessState.noConfusion g3
    · exact g4 hm3

theorem enqueueArrived_inv (n cpu_count : Nat) (t : Int) (alg : Algorithm)
    (procs : Nat → Process) (cpus : Nat → CPU) (hn : n < MAX_PROCESSES) :
    ∀ (A : List Nat) (q : ReadyQueue),
      MidInv n cpu_count t procs cpus q → A.Nodup →
      (∀ i ∈ A, i < n ∧ (procs i).arrival_time ≤ t ∧ (procs i).state = .READY ∧
        (i : Int) ∉ q.toList) →
      MidInv n cpu_count t procs cpus (enqueueArrived alg procs A q) := by
  intro A
  induction A with
  | nil => intro q hmid h1 h2; exact hmid
  | cons a A ih =>
    intro q hmid hnd hA
    obtain ⟨ha1, ha2, ha3, ha4⟩ := hA a (List.mem_cons_self a A)
    have hsz : q.size < MAX_PROCESSES := by
      have hlen := nodup_int_length_le n q.toList hmid.2.1
        (fun e he => ⟨(hmid.2.2.1 e he).1, (hmid.2.2.1 e he).2.1⟩)
      rw [toList_length q] at hlen
      omega
    have hstep : ∀ q2 : ReadyQueue, QInv q2 →
        q2.toList.Perm ((a : Int) :: q.toList) →
        enqueueArrived alg procs A q2 = enqueueArrived alg procs (a :: A) q →
        MidInv n cpu_count t procs cpus (enqueueArrived alg procs (a :: A) q) := by
      intro q2 hq2 hperm hfold
      rw [← hfold]
      refine ih q2 (midinv_cons_queue n cpu_count t procs cpus q q2 a hq2 hperm hmid
        ⟨ha1, ha2, ha3, ha4⟩) (List.nodup_cons.mp hnd).2 ?_
      intro i hi
      obtain ⟨g1, g2, g3, g4⟩ := hA i (List.mem_cons_of_mem a hi)
      refine ⟨g1, g2, g3, ?_⟩
      intro hmem
      have hm2 : (i : Int) ∈ (a : Int) :: q.toList := hperm.mem_iff.mp hmem
      rcases List.mem_cons.mp hm2 with heq | hm3
      · have hia : i = a := by exact_mod_cast heq
        rw [hia] at hi
        exact (List.nodup_cons.mp hnd).1 hi
      · exact g4 hm3
    cases alg with
    | FCFS =>
      refine hstep (enqueue q (a : Int)) (QInv_enqueue q _ hmid.1) ?_ rfl
      rw [toList_enqueue q (a : Int) hmid.1 hsz]
      exact List.perm_append_singleton _ _
    | SJF =>
      refine hstep (enqueue_priority q (a : Int) procs)
        (QInv_enqueue_priority q (a : Int) procs hmid.1) ?_ rfl
      rw [toList_enqueue_priority q (a : Int) procs hmid.1 hsz]
      have hpm : ((q.toList.takeWhile (fun e => !beatsB procs (a : Int) e)) ++
          (a : Int) :: (q.toList.dropWhile (fun e => !beatsB procs (a : Int) e))).Perm
          ((a : Int) :: ((q.toList.takeWhile (fun e => !beatsB procs (a : Int) e)) ++
            q.toList.dropWhile (fun e => !beatsB procs (a : Int) e))) :=
        List.perm_middle
      rwa [List.takeWhile_append_dropWhile] at hpm
    | RR =>
      exact ih q hmid (List.nodup_cons.mp hnd).2
        (fun i hi => hA i (List.mem_cons_of_mem a hi))
    | SRTF =>
      exact ih q hmid (List.nodup_cons.mp hnd).2
        (fun i hi => hA i (List.mem_cons_of_mem a hi))

theorem rrExpiryLoop_inv (n cpu_count : Nat) (t time_quantum : Int)
    (hn : n < MAX_PROCESSES) :
    ∀ (rem c : Nat) (procs : Nat → Process) (cpus : Nat → CPU) (q : ReadyQueue),
      c + rem ≤ cpu_count →
      MidInv n cpu_count t procs cpus q →
      MidInv n cpu_count t (rrExpiryLoop time_quantum c rem (procs, cpus, q)).1
        (rrExpiryLoop time_quantum c rem (procs, cpus, q)).2.1
        (rrExpiryLoop time_quantum c rem (procs, cpus, q)).2.2 := by
  intro rem
  induction rem with
  | zero =>
    intro c procs cpus q hle hmid
    simpa only [rrExpiryLoop] using hmid
  | succ rem ih =>
    intro c procs cpus q hle hmid
    cases hc : (cpus c).current_process with
    | none =>
      simp only [rrExpiryLoop, hc]
      exact ih (c+1) procs cpus q (by omega) hmid
    | some i =>
      by_cases hg1 : 0 < (procs i).remaining_time ∧ (procs i).state = .RUNNING
      · by_cases hg2 : time_quantum ≤ (procs i).quantum_used
        · simp only [rrExpiryLoop, hc, if_pos hg1, if_pos hg2]
          obtain ⟨hQ, hnd, helem, hheld⟩ := hmid
          obtain ⟨g1, g2, g3, g4, g5⟩ := hheld c i (by omega) hc
          have hsz : q.size < MAX_PROCESSES := by
            have hlen := nodup_int_length_le n q.toList hnd
              (fun e he => ⟨(helem e he).1, (helem e he).2.1⟩)
            rw [toList_length q] at hlen
            omega
          have htl := toList_enqueue q (i : Int) hQ hsz
          refine ih (c+1) _ _ _ (by omega) ⟨QInv_enqueue q (i : Int) hQ, ?_, ?_, ?_⟩
          · rw [htl]
            exact ((List.perm_append_singleton (i : Int) q.toList).symm).nodup
              (List.nodup_cons.mpr ⟨g4, hnd⟩)
          · intro e he
            rw [htl] at he
            rcases List.mem_append.mp he with he2 | he2
            · obtain ⟨e1, e2, e3, e4⟩ := helem e he2
              have hne : ¬ (e.toNat = i) := by
                intro hcontra
                apply g4
                have he3 : ((e.toNat : Nat) : Int) = e := Int.toNat_of_nonneg e1
                rw [← hcontra, he3]
                exact he2
              refine ⟨e1, e2, ?_, ?_⟩
              · simp only [if_neg hne]
                exact e3
              · simp only [if_neg hne]
                exact e4
            · have he3 : e = (i : Int) := by simpa using he2
              subst he3
              refine ⟨by omega, by simpa using g1, ?_, ?_⟩
              · simpa using g2
              · simp
          · intro d i' hd hdi
            by_cases hdc : d = c
            · rw [hdc] at hdi
              simp at hdi
            · simp only [if_neg hdc] at hdi
              obtain ⟨k1, k2, k3, k4, k5⟩ := hheld d i' hd hdi
              have hii : ¬ (i' = i) := by
                intro hcontra
                rw [hcontra] at hdi
                exact hdc (g5 d hd hdi)
              refine ⟨k1, ?_, ?_, ?_, ?_⟩
              · simp only [if_neg hii]
                exact k2
              · simp only [if_neg hii]
                exact k3
              · rw [htl]
                intro hmem
                rcases List.mem_append.mp hmem with hm | hm
                · exact k4 hm
                · have hm2 : (i' : Int) = (i : Int) := by simpa using hm
                  exact hii (by exact_mod_cast hm2)
              · intro d2 hd2 hdi2
                by_cases hd2c : d2 = c
                · rw [hd2c] at hdi2
                  simp at hdi2
                · simp only [if_neg hd2c] at hdi2
                  exact k5 d2 hd2 hdi2
        · simp only [rrExpiryLoop, hc, if_pos hg1, if_neg hg2]
          exact ih (c+1) procs cpus q (by omega) hmid
      · simp only [rrExpiryLoop, hc, if_neg hg1]
        exact ih (c+1) procs cpus q (by omega) hmid

theorem assignLoop_inv (n cpu_count : Nat) (t : Int) (hn : n < MAX_PROCESSES) :
    ∀ (fuel c : Nat) (procs : Nat → Process) (cpus : Nat → CPU) (q : ReadyQueue)
      (dis : Bool),
      MidInv n cpu_count t procs cpus q →
      (assignLoop t cpu_count c fuel procs cpus q dis).discarded = dis ∧
      MidInv n cpu_count t (assignLoop t cpu_count c fuel procs cpus q dis).procs
        (assignLoop t cpu_count c fuel procs cpus q dis).cpus
        (assignLoop t cpu_count c fuel procs cpus q dis).queue := by
  intro fuel
  induction fuel with
  | zero =>
    intro c procs cpus q dis hmid
    exact ⟨rfl, hmid⟩
  | succ fuel ih =>
    intro c procs cpus q dis hmid
    by_cases hclt : c < cpu_count
    · cases hcp : (cpus c).current_process with
      | some p0 =>
        simp only [assignLoop, if_pos hclt, hcp]
        exact ih (c+1) procs cpus q dis hmid
      | none =>
        simp only [assignLoop, if_pos hclt, hcp]
        by_cases hqs : q.size = 0
        · rw [dequeue_of_empty q hqs, if_pos rfl]
          exact ⟨rfl, hmid⟩
        · have hcons := toList_dequeue q hmid.1 hqs
          have hmem : (dequeue q).1 ∈ q.toList := by
            rw [hcons]; exact List.mem_cons_self _ _
          obtain ⟨e1, e2, e3, e4⟩ := hmid.2.2.1 (dequeue q).1 hmem
          have hene : ¬ ((dequeue q).1 = -1) := by omega
          rw [if_neg hene]
          have hguard : ¬ ((procs (dequeue q).1.toNat).state = .COMPLETED ∨
              t < (procs (dequeue q).1.toNat).arrival_time) := by
            rintro (hcon | hcon)
            · rw [e4] at hcon
              exact ProcessState.noConfusion hcon
            · omega
          rw [if_neg hguard]
          refine ih (c+1) _ _ _ dis ?_
          obtain ⟨hQ, hnd, helem, hheld⟩ := hmid
          have hndc : ((dequeue q).1 :: (dequeue q).2.toList).Nodup := hcons ▸ hnd
          have hnotin : (dequeue q).1 ∉ (dequeue q).2.toList :=
            (List.nodup_cons.mp hndc).1
          have het : (((dequeue q).1.toNat : Nat) : Int) = (dequeue q).1 :=
            Int.toNat_of_nonneg e1
          refine ⟨QInv_dequeue q hQ, (List.nodup_cons.mp hndc).2, ?_, ?_⟩
          · intro f hf
            have hf2 : f ∈ q.toList := by
              rw [hcons]; exact List.mem_cons_of_mem _ hf
            obtain ⟨f1, f2, f3, f4⟩ := helem f hf2
            have hfne : ¬ (f.toNat = (dequeue q).1.toNat) := by
              intro hcontra
              apply hnotin
              have hft : ((f.toNat : Nat) : Int) = f := Int.toNat_of_nonneg f1
              have hfe : f = (dequeue q).1 := by rw [← hft, hcontra, het]
              rw [← hfe]
              exact hf
            refine ⟨f1, f2, ?_, ?_⟩
            · simp only [if_neg hfne]
              exact f3
            · simp only [if_neg hfne]
              exact f4
          · intro d i' hd hdi
            by_cases hdc : d = c
            · rw [hdc] at hdi
              simp only [if_pos rfl] at hdi
              have hie : (dequeue q).1.toNat = i' := by simpa using hdi
              subst hie
              refine ⟨e2, ?_, ?_, ?_, ?_⟩
              · simp only [if_pos rfl, if_true]
                rw [(dispatchUpd_fields t (procs ((dequeue q).1.toNat))).2.2.1]
                exact e3
              · simp only [if_pos rfl, if_true]
                exact (dispatchUpd_fields t (procs ((dequeue q).1.toNat))).1
              · intro hmem2
                apply hnotin
                rw [← het]
                exact hmem2
              · intro d2 hd2 hdi2
                by_cases hd2c : d2 = c
                · rw [hd2c, hdc]
                · simp only [if_neg hd2c] at hdi2
                  obtain ⟨m1, m2, m3, m4, m5⟩ := hheld d2 ((dequeue q).1.toNat) hd2 hdi2
                  exfalso
                  apply m4
                  rw [het]
                  exact hmem
            · simp only [if_neg hdc] at hdi
              obtain ⟨k1, k2, k3, k4, k5⟩ := hheld d i' hd hdi
              have hii : ¬ (i' = (dequeue q).1.toNat) := by
                intro hcontra
                apply k4
                rw [hcontra, het]
                exact hmem
              refine ⟨k1, ?_, ?_, ?_, ?_⟩
              · simp only [if_neg hii]
                exact k2
              · simp only [if_neg hii]
                exact k3
              · intro hmem2
                apply k4
                rw [hcons]
                exact List.mem_cons_of_mem _ hmem2
              · intro d2 hd2 hdi2
                by_cases hd2c : d2 = c
                · rw [hd2c] at hdi2
                  simp only [if_pos rfl] at hdi2
                  have hie2 : (dequeue q).1.toNat = i' := by simpa using hdi2
                  omega
                · simp only [if_neg hd2c] at hdi2
                  exact k5 d2 hd2 hdi2
    · simp only [assignLoop, if_neg hclt]
      exact ⟨by simp, hmid⟩

theorem executeLoop_inv (cpu_count : Nat) (t : Int) :
    ∀ (rem c : Nat) (procs : Nat → Process) (cpus : Nat → CPU) (completed : Int),
      c + rem ≤ cpu_count →
      (∀ d i, d < cpu_count → (cpus d).current_process = some i →
        (procs i).state = .RUNNING ∧
        ∀ d2, d2 < cpu_count → (cpus d2).current_process = some i → d2 = d) →
      (∀ j, (∀ d, d < cpu_count → ¬ ((cpus d).current_process = some j)) →
        (executeLoop t c rem (procs, cpus, completed)).1 j = procs j) ∧
      (∀ j, ((executeLoop t c rem (procs, cpus, completed)).1 j).arrival_time =
        (procs j).arrival_time) ∧
      (∀ d i, d < cpu_count →
        ((executeLoop t c rem (procs, cpus, completed)).2.1 d).current_process = some i →
        (cpus d).current_process = some i ∧
        ((executeLoop t c rem (procs, cpus, completed)).1 i).state = .RUNNING) := by
  intro rem
  induction rem with
  | zero =>
    intro c procs cpus completed hle hrun
    refine ⟨fun j hj => rfl, fun j => rfl, ?_⟩
    intro d i hd hdi
    exact ⟨hdi, (hrun d i hd hdi).1⟩
  | succ rem ih =>
    intro c procs cpus completed hle hrun
    have hclt : c < cpu_count := by omega
    cases hc : (cpus c).current_process with
    | none =>
      simp only [executeLoop, hc]
      have hcur : ∀ d, ((fun d => if d = c then
          { id := (cpus c).id, current_process := none,
            idle_time := (cpus c).idle_time + 1, busy_time := (cpus c).busy_time }
          else cpus d) d).current_process = (cpus d).current_process := by
        intro d
        by_cases hdc : d = c
        · rw [hdc]
          simp [hc]
        · simp [hdc]
      obtain ⟨ihA, ihB, ihD⟩ := ih (c+1) procs
        (fun d => if d = c then
          { id := (cpus c).id, current_process := none,
            idle_time := (cpus c).idle_time + 1, busy_time := (cpus c).busy_time }
          else cpus d) completed (by omega)
        (fun d i hd hdi => by
          rw [hcur d] at hdi
          exact ⟨(hrun d i hd hdi).1, fun d2 hd2 hdi2 => by
            rw [hcur d2] at hdi2
            exact (hrun d i hd hdi).2 d2 hd2 hdi2⟩)
      refine ⟨?_, ihB, ?_⟩
      · intro j hj
        exact ihA j (fun d hd => by rw [hcur d]; exact hj d hd)
      · intro d i hd hdi
        obtain ⟨hd1, hd2⟩ := ihD d i hd hdi
        rw [hcur d] at hd1
        exact ⟨hd1, hd2⟩
    | some i0 =>
      have hi0run := (hrun c i0 hclt hc).1
      have hi0uniq := (hrun c i0 hclt hc).2
      by_cases hrem : (procs i0).remaining_time - 1 ≤ 0
      · -- the process completes and the CPU is freed
        simp only [executeLoop, hc, if_pos hrem]
        have hcur : ∀ d, ¬ (d = c) → ((fun d => if d = c then
            { cpus c with busy_time := (cpus c).busy_time + 1, current_process := none }
            else cpus d) d).current_process = (cpus d).current_process := by
          intro d hdc
          simp [hdc]
        have hcurc : ((fun d => if d = c then
            { cpus c with busy_time := (cpus c).busy_time + 1, current_process := none }
            else cpus d) c).current_process = none := by
          simp
        obtain ⟨ihA, ihB, ihD⟩ := ih (c+1)
          (fun j => if j = i0 then
            { procs i0 with
                remaining_time := (procs i0).remaining_time - 1
                quantum_used := (procs i0).quantum_used + 1
                finish_time := t + 1
                state := .COMPLETED }
            else procs j)
          (fun d => if d = c then
            { cpus c with busy_time := (cpus c).busy_time + 1, current_process := none }
            else cpus d) (completed + 1) (by omega)
          (fun d i hd hdi => by
            by_cases hdc : d = c
            · rw [hdc, hcurc] at hdi
              exact Option.noConfusion hdi
            · rw [hcur d hdc] at hdi
              have hii : ¬ (i = i0) := by
                intro hcontra
                rw [hcontra] at hdi
                exact hdc (hi0uniq d hd hdi)
              refine ⟨by simp only [if_neg hii]; exact (hrun d i hd hdi).1, ?_⟩
              intro d2 hd2 hdi2
              by_cases hd2c : d2 = c
              · rw [hd2c, hcurc] at hdi2
                exact absurd hdi2 (by simp)
              · rw [hcur d2 hd2c] at hdi2
                exact (hrun d i hd hdi).2 d2 hd2 hdi2)
        refine ⟨?_, ?_, ?_⟩
        · intro j hj
          have hji0 : ¬ (j = i0) := by
            intro hcontra
            rw [hcontra] at hj
            exact hj c hclt hc
          have := ihA j (fun d hd => by
            by_cases hdc : d = c
            · rw [hdc, hcurc]
              simp
            · rw [hcur d hdc]
              exact hj d hd)
          rw [this]
          simp only [if_neg hji0]
        · intro j
          rw [ihB j]
          by_cases hji0 : j = i0
          · rw [hji0]
            simp
          · simp [hji0]
        · intro d i hd hdi
          obtain ⟨hd1, hd2⟩ := ihD d i hd hdi
          by_cases hdc : d = c
          · rw [hdc, hcurc] at hd1
            exact Option.noConfusion hd1
          · rw [hcur d hdc] at hd1
            exact ⟨hd1, hd2⟩
      · -- the process keeps running
        simp only [executeLoop, hc, if_neg hrem]
        have hcur : ∀ d, ((fun d => if d = c then
            { id := (cpus c).id, current_process := some i0,
              idle_time := (cpus c).idle_time, busy_time := (cpus c).busy_time + 1 }
            else cpus d) d).current_process = (cpus d).current_process := by
          intro d
          by_cases hdc : d = c
          · rw [hdc]
            simp [hc]
          · simp [hdc]
        have hstate : ∀ i, ((fun j => if j = i0 then
            { procs i0 with
                remaining_time := (procs i0).remaining_time - 1
                quantum_used := (procs i0).quantum_used + 1 }
            else procs j) i).state = (procs i).state := by
          intro i
          by_cases hii : i = i0
          · rw [hii]; simp
          · simp [hii]
        obtain ⟨ihA, ihB, ihD⟩ := ih (c+1)
          (fun j => if j = i0 then
            { procs i0 with
                remaining_time := (procs i0).remaining_time - 1
                quantum_used := (procs i0).quantum_used + 1 }
            else procs j)
          (fun d => if d = c then
            { id := (cpus c).id, current_process := some i0,
              idle_time := (cpus c).idle_time, busy_time := (cpus c).busy_time + 1 }
            else cpus d) completed (by omega)
          (fun d i hd hdi => by
            rw [hcur d] at hdi
            refine ⟨?_, ?_⟩
            · rw [hstate i]
              exact (hrun d i hd hdi).1
            · intro d2 hd2 hdi2
              rw [hcur d2] at hdi2
              exact (hrun d i hd hdi).2 d2 hd2 hdi2)
        refine ⟨?_, ?_, ?_⟩
        · intro j hj
          have hji0 : ¬ (j = i0) := by
            intro hcontra
            rw [hcontra] at hj
            exact hj c hclt hc
          have := ihA j (fun d hd => by rw [hcur d]; exact hj d hd)
          rw [this]
          simp only [if_neg hji0]
        · intro j
          rw [ihB j]
          by_cases hji0 : j = i0
          · rw [hji0]
            simp
          · simp [hji0]
        · intro d i hd hdi
          obtain ⟨hd1, hd2⟩ := ihD d i hd hdi
          rw [hcur d] at hd1
          exact ⟨hd1, hd2⟩

theorem post_phases_inv (n cpu_count : Nat) (t : Int)
    (procs : Nat → Process) (cpus : Nat → CPU) (q : ReadyQueue) (completed : Int)
    (hmid : MidInv n cpu_count t procs cpus q) :
    QInv q ∧ q.toList.Nodup ∧
    (∀ e ∈ q.toList, 0 ≤ e ∧ e.toNat < n ∧
      ((executeLoop t 0 cpu_count (waitingLoop t 0 n procs, cpus, completed)).1
        e.toNat).arrival_time < t + 1 ∧
      ((executeLoop t 0 cpu_count (waitingLoop t 0 n procs, cpus, completed)).1
        e.toNat).state = .READY) ∧
    (∀ d i, d < cpu_count →
      ((executeLoop t 0 cpu_count (waitingLoop t 0 n procs, cpus, completed)).2.1
        d).current_process = some i →
      i < n ∧
      ((executeLoop t 0 cpu_count (waitingLoop t 0 n procs, cpus, completed)).1
        i).arrival_time < t + 1 ∧
      ((executeLoop t 0 cpu_count (waitingLoop t 0 n procs, cpus, completed)).1
        i).state = .RUNNING ∧
      (i : Int) ∉ q.toList ∧
      ∀ d2, d2 < cpu_count →
        ((executeLoop t 0 cpu_count (waitingLoop t 0 n procs, cpus, completed)).2.1
          d2).current_process = some i → d2 = d) := by
  obtain ⟨hQ, hnd, helem, hheld⟩ := hmid
  obtain ⟨hexA, hexB, hexD⟩ := executeLoop_inv cpu_count t cpu_count 0
    (waitingLoop t 0 n procs) cpus completed (by omega)
    (fun d i hd hdi =>
      ⟨by
        rw [(waitingLoop_fields t n 0 procs i).2]
        exact (hheld d i hd hdi).2.2.1,
       fun d2 hd2 hdi2 => (hheld d i hd hdi).2.2.2.2 d2 hd2 hdi2⟩)
  refine ⟨hQ, hnd, ?_, ?_⟩
  · intro e he
    obtain ⟨g1, g2, g3, g4⟩ := helem e he
    have hnot : ∀ d, d < cpu_count → ¬ ((cpus d).current_process = some e.toNat) := by
      intro d hd hdi
      obtain ⟨k1, k2, k3, k4, k5⟩ := hheld d e.toNat hd hdi
      apply k4
      rw [Int.toNat_of_nonneg g1]
      exact he
    have hfe := hexA e.toNat hnot
    refine ⟨g1, g2, ?_, ?_⟩
    · rw [hfe, (waitingLoop_fields t n 0 procs e.toNat).1]
      omega
    · rw [hfe, (waitingLoop_fields t n 0 procs e.toNat).2]
      exact g4
  · intro d i hd hdi
    obtain ⟨hdi0, hstate⟩ := hexD d i hd hdi
    obtain ⟨k1, k2, k3, k4, k5⟩ := hheld d i hd hdi0
    refine ⟨k1, ?_, hstate, k4, ?_⟩
    · rw [hexB i, (waitingLoop_fields t n 0 procs i).1]
      omega
    · intro d2 hd2 hdi2
      obtain ⟨hdi20, hstate2⟩ := hexD d2 i hd2 hdi2
      exact k5 d2 hd2 hdi20

theorem handle_arrivals_inv (n cpu_count : Nat) (alg : Algorithm) (st : SimState)
    (hn : n < MAX_PROCESSES) (hinv : SimInv n cpu_count st) :
    MidInv n cpu_count st.current_time
      (handle_arrivals st.procs n st.current_time alg st.queue).1 st.cpus
      (handle_arrivals st.procs n st.current_time alg st.queue).2.2 ∧
    (handle_arrivals st.procs n st.current_time alg st.queue).2.1.Nodup ∧
    ∀ i ∈ (handle_arrivals st.procs n st.current_time alg st.queue).2.1,
      i < n ∧
      ((handle_arrivals st.procs n st.current_time alg st.queue).1 i).arrival_time =
        st.current_time ∧
      ((handle_arrivals st.procs n st.current_time alg st.queue).1 i).state = .READY ∧
      (i : Int) ∉ st.queue.toList := by
  obtain ⟨hQ, hnd, helem, hheld⟩ := hinv
  obtain ⟨iha, A, hA2, hAnd, hAmem⟩ := arrivalsLoop_inv st.current_time n 0 st.procs []
  rw [List.nil_append] at hA2
  have hfix : ∀ j, (st.procs j).arrival_time < st.current_time →
      (arrivalsLoop st.current_time 0 n st.procs []).1 j = st.procs j := by
    intro j hj
    rcases iha j with h | ⟨h1, h2, h3, h4⟩
    · exact h
    · omega
  have hAprop : ∀ i ∈ A, i < n ∧
      ((arrivalsLoop st.current_time 0 n st.procs []).1 i).arrival_time =
        st.current_time ∧
      ((arrivalsLoop st.current_time 0 n st.procs []).1 i).state = .READY ∧
      (i : Int) ∉ st.queue.toList := by
    intro i hi
    obtain ⟨h0, h1, h2, h3, h4⟩ := hAmem i hi
    refine ⟨by omega, h4, h3, ?_⟩
    intro hmem
    obtain ⟨g1, g2, g3, g4⟩ := helem (i : Int) hmem
    have g5 : (st.procs i).arrival_time < st.current_time := by simpa using g3
    omega
  have hmid0 : MidInv n cpu_count st.current_time
      (arrivalsLoop st.current_time 0 n st.procs []).1 st.cpus st.queue := by
    refine ⟨hQ, hnd, ?_, ?_⟩
    · intro e he
      obtain ⟨g1, g2, g3, g4⟩ := helem e he
      rw [hfix e.toNat g3]
      exact ⟨g1, g2, by omega, g4⟩
    · intro d i hd hdi
      obtain ⟨k1, k2, k3, k4, k5⟩ := hheld d i hd hdi
      rw [hfix i k2]
      exact ⟨k1, by omega, k3, k4, k5⟩
  simp only [handle_arrivals]
  rw [hA2]
  refine ⟨?_, hAnd, hAprop⟩
  exact enqueueArrived_inv n cpu_count st.current_time alg
    (arrivalsLoop st.current_time 0 n st.procs []).1 st.cpus hn A st.queue hmid0 hAnd
    (fun i hi => by
      obtain ⟨p1, p2, p3, p4⟩ := hAprop i hi
      exact ⟨p1, le_of_eq p2, p3, p4⟩)

theorem tick_inv (n cpu_count : Nat) (alg : Algorithm) (tq : Int)
    (hn : n < MAX_PROCESSES) (st : SimState) (hinv : SimInv n cpu_count st) :
    SimInv n cpu_count (tick n cpu_count alg tq st) ∧
    (tick n cpu_count alg tq st).discarded = st.discarded := by
  obtain ⟨hmidA, hndA, hApropA⟩ := handle_arrivals_inv n cpu_count alg st hn hinv
  simp only [tick, handle_srtf_preemption, ite_self, assign_processes_to_idle_cpus,
    update_waiting_times, execute_processes, handle_rr_quantum_expiry]
  by_cases hrr : alg = Algorithm.RR
  · subst hrr
    simp only [if_true]
    have hq1 : (handle_arrivals st.procs n st.current_time Algorithm.RR st.queue).2.2 =
        st.queue := by
      simp only [handle_arrivals]
      exact enqueueArrived_rr _ _ _
    rw [hq1] at hmidA ⊢
    rw [rrFold_eq (handle_arrivals st.procs n st.current_time Algorithm.RR st.queue).1
      (handle_arrivals st.procs n st.current_time Algorithm.RR st.queue).2.1 st.queue]
    have hmid15 := enqueueArrived_inv n cpu_count st.current_time .FCFS
      (handle_arrivals st.procs n st.current_time Algorithm.RR st.queue).1 st.cpus hn
      (handle_arrivals st.procs n st.current_time Algorithm.RR st.queue).2.1 st.queue
      hmidA hndA
      (fun i hi => by
        obtain ⟨p1, p2, p3, p4⟩ := hApropA i hi
        exact ⟨p1, le_of_eq p2, p3, p4⟩)
    have hmidB := rrExpiryLoop_inv n cpu_count st.current_time tq hn cpu_count 0
      (handle_arrivals st.procs n st.current_time Algorithm.RR st.queue).1 st.cpus
      (enqueueArrived .FCFS
        (handle_arrivals st.procs n st.current_time Algorithm.RR st.queue).1
        (handle_arrivals st.procs n st.current_time Algorithm.RR st.queue).2.1
        st.queue) (by omega) hmid15
    generalize hB : rrExpiryLoop tq 0 cpu_count
      ((handle_arrivals st.procs n st.current_time Algorithm.RR st.queue).1, st.cpus,
        enqueueArrived .FCFS
          (handle_arrivals st.procs n st.current_time Algorithm.RR st.queue).1
          (handle_arrivals st.procs n st.current_time Algorithm.RR st.queue).2.1
          st.queue) = B
    rw [hB] at hmidB
    have h2 := assignLoop_inv n cpu_count st.current_time hn
      (cpu_count + B.2.2.size + 1) 0 B.1 B.2.1 B.2.2 false hmidB
    generalize hAR : assignLoop st.current_time cpu_count 0
      (cpu_count + B.2.2.size + 1) B.1 B.2.1 B.2.2 false = AR
    rw [hAR] at h2
    obtain ⟨p1, p2, p3, p4⟩ := post_phases_inv n cpu_count st.current_time
      AR.procs AR.cpus AR.queue st.completed_count h2.2
    refine ⟨⟨p1, p2, p3, p4⟩, ?_⟩
    rw [h2.1]
    simp
  · simp only [if_neg hrr]
    have h2 := assignLoop_inv n cpu_count st.current_time hn
      (cpu_count + (handle_arrivals st.procs n st.current_time alg st.queue).2.2.size + 1)
      0 (handle_arrivals st.procs n st.current_time alg st.queue).1 st.cpus
      (handle_arrivals st.procs n st.current_time alg st.queue).2.2 false hmidA
    generalize hAR : assignLoop st.current_time cpu_count 0
      (cpu_count + (handle_arrivals st.procs n st.current_time alg st.queue).2.2.size + 1)
      (handle_arrivals st.procs n st.current_time alg st.queue).1 st.cpus
      (handle_arrivals st.procs n st.current_time alg st.queue).2.2 false = AR
    rw [hAR] at h2
    obtain ⟨p1, p2, p3, p4⟩ := post_phases_inv n cpu_count st.current_time
      AR.procs AR.cpus AR.queue st.completed_count h2.2
    refine ⟨⟨p1, p2, p3, p4⟩, ?_⟩
    rw [h2.1]
    simp

theorem initState_SimInv (n cpu_count : Nat) (procs : Nat → Process) :
    SimInv n cpu_count (initState procs) := by
  refine ⟨init_queue_QInv, List.nodup_nil, ?_, ?_⟩
  · intro e he
    exact absurd (show e ∈ ([] : List Int) from he) (List.not_mem_nil e)
  · intro d i hd hdi
    exact Option.noConfusion hdi

theorem simLoop_discarded (n cpu_count : Nat) (alg : Algorithm) (tq : Int)
    (hn : n < MAX_PROCESSES) :
    ∀ (fuel : Nat) (st : SimState), SimInv n cpu_count st →
      (simLoop n cpu_count alg tq fuel st).discarded = st.discarded := by
  intro fuel
  induction fuel with
  | zero => intro st hinv; rfl
  | succ fuel ih =>
    intro st hinv
    obtain ⟨hs1, hd1⟩ := tick_inv n cpu_count alg tq hn st hinv
    by_cases hc : st.completed_count < (n : Int)
    · simp only [simLoop, if_pos hc]
      split
      · exact hd1
      · split
        · exact hd1
        · exact (ih { tick n cpu_count alg tq st with
            bruh := (tick n cpu_count alg tq st).bruh + 1 } hs1).trans hd1
    · simp only [simLoop, if_neg hc]

/-- C10: for every run under FCFS, RR or SJF with fewer than `MAX_PROCESSES`
processes, every index popped from the ready queue during dispatch refers to a
process that has already arrived and is not `COMPLETED`, so the defensive
discard-and-retry branch of `assign_processes_to_idle_cpus` is never executed:
the ghost `discarded` flag of the whole simulation stays `false`. -/
theorem C10_defensive_discard_unreachable (procs : Nat → Process)
    (n cpu_count : Nat) (alg : Algorithm) (tq : Int)
    (hn : n < MAX_PROCESSES)
    (halg : alg = .FCFS ∨ alg = .RR ∨ alg = .SJF) :
    (simulate procs n cpu_count alg tq).discarded = false := by
  have h := simLoop_discarded n cpu_count alg tq hn 102 (initState procs)
    (initState_SimInv n cpu_count procs)
  show (simLoop n cpu_count alg tq 102 (initState procs)).discarded = false
  rw [h]
  rfl

/-- Witness: the discard-free theorem instantiated on a concrete one-process
FCFS run, with both hypotheses discharged. -/
theorem C10_discard_witness :
    1 < MAX_PROCESSES ∧
    (Algorithm.FCFS = Algorithm.FCFS ∨ Algorithm.FCFS = Algorithm.RR ∨
      Algorithm.FCFS = Algorithm.SJF) ∧
    (simulate procsC10 1 1 .FCFS 2).discarded = false :=
  ⟨by decide, Or.inl rfl,
    C10_defensive_discard_unreachable procsC10 1 1 .FCFS 2 (by decide) (Or.inl rfl)⟩

theorem simLoop_fuel_step (process_count cpu_count : Nat) (alg : Algorithm) (tq : Int) :
    ∀ (f : Nat) (st : SimState), 101 - st.bruh < f →
      simLoop process_count cpu_count alg tq (f+1) st =
      simLoop process_count cpu_count alg tq f st := by
  have hunf : ∀ (g : Nat) (s : SimState),
      simLoop process_count cpu_count alg tq (g+1) s =
      if s.completed_count < (process_count : Int) then
        (if (tick process_count cpu_count alg tq s).timeline_capacity * 5 <
              (tick process_count cpu_count alg tq s).current_time ∧
            (tick process_count cpu_count alg tq s).completed_count <
              (process_count : Int) then
          { tick process_count cpu_count alg tq s with aborted := true }
        else if 100 < (tick process_count cpu_count alg tq s).bruh + 1 then
          { tick process_count cpu_count alg tq s with
              bruh := (tick process_count cpu_count alg tq s).bruh + 1 }
        else simLoop process_count cpu_count alg tq g
          { tick process_count cpu_count alg tq s with
              bruh := (tick process_count cpu_count alg tq s).bruh + 1 })
      else s := by
    intro g s
    rfl
  intro f
  induction f with
  | zero =>
    intro st h
    exact absurd h (by omega)
  | succ f ih =>
    intro st h
    rw [hunf (f+1) st, hunf f st]
    by_cases hc : st.completed_count < (process_count : Int)
    · simp only [if_pos hc]
      by_cases hb : (tick process_count cpu_count alg tq st).timeline_capacity * 5 <
          (tick process_count cpu_count alg tq st).current_time ∧
          (tick process_count cpu_count alg tq st).completed_count <
            (process_count : Int)
      · simp only [if_pos hb]
      · simp only [if_neg hb]
        by_cases h100 : 100 < (tick process_count cpu_count alg tq st).bruh + 1
        · simp only [if_pos h100]
        · simp only [if_neg h100]
          apply ih
          have hbr : (tick process_count cpu_count alg tq st).bruh = st.bruh := rfl
          show 101 - ((tick process_count cpu_count alg tq st).bruh + 1) < f
          rw [hbr]
          rw [hbr] at h100
          omega
    · simp only [if_neg hc]

theorem simLoop_fuel_add (process_count cpu_count : Nat) (alg : Algorithm) (tq : Int) :
    ∀ (k f : Nat) (st : SimState), 101 - st.bruh < f →
      simLoop process_count cpu_count alg tq (f + k) st =
      simLoop process_count cpu_count alg tq f st := by
  intro k
  induction k with
  | zero => intro f st h; rfl
  | succ k ih =>
    intro f st h
    have h1 := simLoop_fuel_step process_count cpu_count alg tq (f + k) st (by omega)
    calc simLoop process_count cpu_count alg tq (f + (k+1)) st
        = simLoop process_count cpu_count alg tq ((f + k) + 1) st := rfl
      _ = simLoop process_count cpu_count alg tq (f + k) st := h1
      _ = simLoop process_count cpu_count alg tq f st := ih f st h

theorem simLoop_fuel_independent (process_count cpu_count : Nat) (alg : Algorithm)
    (tq : Int) (f1 f2 : Nat) (st : SimState)
    (h1 : 101 - st.bruh < f1) (h2 : 101 - st.bruh < f2) :
    simLoop process_count cpu_count alg tq f1 st =
    simLoop process_count cpu_count alg tq f2 st := by
  rcases Nat.le_total f1 f2 with hle | hle
  · obtain ⟨k, rfl⟩ := Nat.le.dest hle
    exact (simLoop_fuel_add process_count cpu_count alg tq k f1 st h1).symm
  · obtain ⟨k, rfl⟩ := Nat.le.dest hle
    exact simLoop_fuel_add process_count cpu_count alg tq k f2 st h2

end CSched
